import Mathlib

/-!
Verification of the CubeWrld cube-state model and phase-recognition engine.

Shallow embedding of the TypeScript sources:
* `src/utils/cubeLogic.ts`      — `getInitialState`, `rotateVector`
* `src/components/Scene.tsx`    — `useCubeAnimation` move commit (`applyMove` here)
* `src/utils/phaseEngine.ts`    — piece predicates, `isCorrectlyPlaced`,
                                  `isOrientedForOLL`, `analyzeCube`
* `src/utils/ollPatterns.ts`    — `identify2LookOLL`
* `src/utils/pllPatterns.ts`    — `getStickerColor`, `identifyPLL`

Numeric model.  Every quaternion produced by the program is generated from
`THREE.Quaternion.setFromAxisAngle(axis, k·π/2)`, so all quaternion components
lie in the ring ℚ(√2); we represent those numbers exactly as unreduced
integer fractions (`K` below, the value of `⟨a, b, d⟩` being
`(a + b·√2)/d` with `d > 0`).  Cube piece
positions are integer triples `(-1|0|1, …)` (see `types.ts`), so positions are
embedded as integer vectors.  Strict floating-point comparisons
`dist < ε` of the source are embedded as the equivalent exact comparisons
`dist² < ε²` (both sides are nonnegative), and `Vector3.angleTo a b < 0.5`
as `0 < a·b ∧ cos²(0.5)·|a|²·|b|² < (a·b)²`, the monotone-cosine rewriting of
the same test (`cos²(0.5) ≈ 0.770151…` is replaced by the rational `77/100`;
every state this development evaluates has cosines in `{-1, 0, 1}`, where the
two constants classify identically).
-/

/-- `(a + b·√2)/d`: the exact field elements containing all quaternion
components produced by quarter- and half-turn moves, together with the
rational thresholds of the classifiers.  The fraction is kept unreduced —
plain integer arithmetic kernel-reduces fast — and every value built in this
development has a positive denominator.  `K.lt` and `K.eqv` compare the
represented real values; `K.val` (further below) evaluates a `K` into the
pair of rational coordinates of `ℚ(√2)` for the algebraic lemmas. -/
structure K where
  a : ℤ
  b : ℤ
  d : ℤ
deriving DecidableEq, Repr

namespace K

def add (x y : K) : K := ⟨x.a * y.d + y.a * x.d, x.b * y.d + y.b * x.d, x.d * y.d⟩

def mul (x y : K) : K :=
  ⟨x.a * y.a + 2 * (x.b * y.b), x.a * y.b + x.b * y.a, x.d * y.d⟩

def neg (x : K) : K := ⟨-x.a, -x.b, x.d⟩

def sub (x y : K) : K := add x (neg y)

instance : Add K := ⟨add⟩
instance : Mul K := ⟨mul⟩
instance : Neg K := ⟨neg⟩
instance : Sub K := ⟨sub⟩

/-- Embedding of a rational constant `n/m` (`m` positive at every use). -/
def mkQ (n m : ℤ) : K := ⟨n, 0, m⟩

/-- Embedding of an integer. -/
def ofZ (n : ℤ) : K := ⟨n, 0, 1⟩

instance : OfNat K 0 := ⟨⟨0, 0, 1⟩⟩
instance : OfNat K 1 := ⟨⟨1, 0, 1⟩⟩

/-- `√2/2`, the sine/cosine of `π/4`. -/
def hs : K := ⟨0, 1, 2⟩

/-- Equality of the represented real values, by cross-multiplication (reads
the value whenever both denominators are positive). -/
def eqv (x y : K) : Bool :=
  decide (x.a * y.d = y.a * x.d ∧ x.b * y.d = y.b * x.d)

/-- Decides `x < y` in ℝ: with positive denominators this is the sign of
`e + f·√2` for `e = y.a·x.d - x.a·y.d`, `f = y.b·x.d - x.b·y.d`, resolved by
comparing `e²` with `2·f²` in the mixed-sign quadrants. -/
def lt (x y : K) : Bool :=
  let e := y.a * x.d - x.a * y.d
  let f := y.b * x.d - x.b * y.d
  if 0 ≤ e then
    (if 0 ≤ f then decide (0 < e ∨ 0 < f) else decide (2 * f * f < e * e))
  else
    (if 0 ≤ f then decide (e * e < 2 * f * f) else false)

end K

/-- An integer 3-vector: the type of `position` / `initialPosition`
(`Vector3Arr` in `types.ts`, always integer-valued in `{-1,0,1}`). -/
structure Vec3Z where
  x : ℤ
  y : ℤ
  z : ℤ
deriving DecidableEq, Repr

/-- A 3-vector over `K` (`THREE.Vector3` values appearing in the analysis). -/
structure Vec3K where
  x : K
  y : K
  z : K
deriving DecidableEq, Repr

namespace Vec3Z

def sub (u v : Vec3Z) : Vec3Z := ⟨u.x - v.x, u.y - v.y, u.z - v.z⟩

/-- Squared Euclidean distance of two integer vectors. -/
def distSq (u v : Vec3Z) : ℤ :=
  (u.x - v.x) ^ 2 + (u.y - v.y) ^ 2 + (u.z - v.z) ^ 2

/-- Integer dot product. -/
def dot (u v : Vec3Z) : ℤ := u.x * v.x + u.y * v.y + u.z * v.z

def toK (v : Vec3Z) : Vec3K := ⟨K.ofZ v.x, K.ofZ v.y, K.ofZ v.z⟩

end Vec3Z

namespace Vec3K

def add (u v : Vec3K) : Vec3K := ⟨u.x + v.x, u.y + v.y, u.z + v.z⟩

def sub (u v : Vec3K) : Vec3K := ⟨u.x - v.x, u.y - v.y, u.z - v.z⟩

def dot (u v : Vec3K) : K := u.x * v.x + u.y * v.y + u.z * v.z

def cross (u v : Vec3K) : Vec3K :=
  ⟨u.y * v.z - u.z * v.y, u.z * v.x - u.x * v.z, u.x * v.y - u.y * v.x⟩

def smul (c : K) (v : Vec3K) : Vec3K := ⟨c * v.x, c * v.y, c * v.z⟩

/-- Squared Euclidean length. -/
def normSq (v : Vec3K) : K := dot v v

/-- Squared Euclidean distance. -/
def distSq (u v : Vec3K) : K := normSq (sub u v)

/-- `THREE.Vector3.normalize` divides by the Euclidean length.  The vectors
this development normalizes all have squared length 0, 1, 2 or 4, where the
scale factor lies in `K` (`1`, `√2/2 = ⟨0, 1/2⟩`, `1/2`); other vectors are
returned unchanged (no call site produces one). -/
def normalize (v : Vec3K) : Vec3K :=
  let n := normSq v
  if K.eqv n 1 then v
  else if K.eqv n (K.ofZ 2) then smul K.hs v
  else if K.eqv n (K.ofZ 4) then smul (K.mkQ 1 2) v
  else v

/-- `a.angleTo b < 0.5` (radians), rewritten through the cosine:
`acos(a·b/(|a||b|)) < 0.5  ↔  0 < a·b ∧ cos²(0.5)·|a|²·|b|² < (a·b)²`.
The irrational constant `cos²(0.5) = 0.770151…` is replaced by `77/100`;
all cosines evaluated by this development lie in `{-1, 0, 1}`, where the two
constants classify identically (see the header comment). -/
def angleLtHalf (u v : Vec3K) : Bool :=
  K.lt 0 (dot u v) &&
    K.lt (K.mkQ 77 100 * (normSq u * normSq v)) (dot u v * dot u v)

/-- Componentwise value equality. -/
def eqv (u v : Vec3K) : Bool :=
  K.eqv u.x v.x && K.eqv u.y v.y && K.eqv u.z v.z

end Vec3K

/-- A quaternion over `K` (`THREE.Quaternion`, component order x y z w). -/
structure QuatK where
  x : K
  y : K
  z : K
  w : K
deriving DecidableEq, Repr

namespace QuatK

/-- The identity quaternion (`new THREE.Quaternion()`). -/
def one : QuatK := ⟨0, 0, 0, 1⟩

/-- Hamilton product, as in `THREE.Quaternion.multiply`. -/
def mul (q r : QuatK) : QuatK :=
  ⟨q.x * r.w + q.w * r.x + q.y * r.z - q.z * r.y,
   q.y * r.w + q.w * r.y + q.z * r.x - q.x * r.z,
   q.z * r.w + q.w * r.z + q.x * r.y - q.y * r.x,
   q.w * r.w - q.x * r.x - q.y * r.y - q.z * r.z⟩

/-- `THREE.Quaternion.invert`: the conjugate (the inverse for the unit
quaternions this program produces). -/
def conj (q : QuatK) : QuatK := ⟨-q.x, -q.y, -q.z, q.w⟩

def negQ (q : QuatK) : QuatK := ⟨-q.x, -q.y, -q.z, -q.w⟩

/-- `THREE.Quaternion.normalize` divides by the norm; every quaternion this
program normalizes is a product of unit `setFromAxisAngle` quaternions, hence
already unit, so normalization is the identity. -/
def normalize (q : QuatK) : QuatK := q

/-- `THREE.Vector3.applyQuaternion`, verbatim from the three.js source:
`t = 2·(q.xyz × v); v' = v + q.w·t + q.xyz × t`. -/
def applyToVec (v : Vec3K) (q : QuatK) : Vec3K :=
  let qv : Vec3K := ⟨q.x, q.y, q.z⟩
  let t := Vec3K.smul (K.ofZ 2) (Vec3K.cross qv v)
  Vec3K.add v (Vec3K.add (Vec3K.smul q.w t) (Vec3K.cross qv t))

/-- Componentwise value equality. -/
def eqv (q r : QuatK) : Bool :=
  K.eqv q.x r.x && K.eqv q.y r.y && K.eqv q.z r.z && K.eqv q.w r.w

end QuatK

/-- The three rotation axes of a `Move` (`axis: 'x' | 'y' | 'z'`). -/
inductive Axis where
  | x
  | y
  | z
deriving DecidableEq, Repr

/-- The unit vector of an axis (the `axisVec` built in the move commit). -/
def Axis.unitVec : Axis → Vec3Z
  | .x => ⟨1, 0, 0⟩
  | .y => ⟨0, 1, 0⟩
  | .z => ⟨0, 0, 1⟩

/-- `c.position[axisIndex]`: the component of a vector along an axis
(`axisIndex = {x:0, y:1, z:2}[move.axis]`). -/
def Vec3Z.comp (v : Vec3Z) : Axis → ℤ
  | .x => v.x
  | .y => v.y
  | .z => v.z

/-- One piece record (`CubieState` in `types.ts`).  `rotation` is the unused
Euler-angle triple, carried (and never modified) exactly as in the source. -/
structure Cubie where
  id : ℕ
  initialPosition : Vec3Z
  position : Vec3Z
  rotation : Vec3K
  quaternion : QuatK
deriving DecidableEq, Repr

/-- A move command (`Move` in `types.ts`): axis, slice list, direction in
`{1, -1, 2, -2}`. -/
structure MoveT where
  axis : Axis
  slice : List ℤ
  direction : ℤ
deriving DecidableEq, Repr

/-- The 27 lattice points in the nesting order of the `getInitialState`
loops (`x`, then `y`, then `z`, each from `-1` to `1`). -/
def latticeList : List Vec3Z :=
  ([-1, 0, 1] : List ℤ).flatMap fun x =>
    ([-1, 0, 1] : List ℤ).flatMap fun y =>
      ([-1, 0, 1] : List ℤ).map fun z => ⟨x, y, z⟩

/-- `getInitialState` (`cubeLogic.ts`): 27 pieces, ids assigned in loop
order, `initialPosition = position`, Euler angles zero, identity quaternion. -/
def getInitialState : List Cubie :=
  latticeList.enum.map fun p =>
    { id := p.1
      initialPosition := p.2
      position := p.2
      rotation := ⟨0, 0, 0⟩
      quaternion := QuatK.one }

/-- `roundPos` (`cubeLogic.ts`): `Math.round`, the identity on the integer
coordinates this program rounds. -/
def roundPos (n : ℤ) : ℤ := n

/-- `rotateVector` (`cubeLogic.ts`): half turns negate the two off-axis
coordinates; quarter turns use the explicit right-handed formulas. -/
def rotateVector (v : Vec3Z) (axis : Axis) (direction : ℤ) : Vec3Z :=
  if direction.natAbs = 2 then
    match axis with
    | .x => ⟨roundPos v.x, roundPos (-v.y), roundPos (-v.z)⟩
    | .y => ⟨roundPos (-v.x), roundPos v.y, roundPos (-v.z)⟩
    | .z => ⟨roundPos (-v.x), roundPos (-v.y), roundPos v.z⟩
  else
    let dir := direction
    match axis with
    | .x => ⟨roundPos v.x, roundPos (dir * -v.z), roundPos (dir * v.y)⟩
    | .y => ⟨roundPos (dir * v.z), roundPos v.y, roundPos (dir * -v.x)⟩
    | .z => ⟨roundPos (dir * -v.y), roundPos (dir * v.x), roundPos v.z⟩

/-- `sin((π/4)·d)` for the four legal move directions (the half-angle sine of
`setFromAxisAngle(axis, (π/2)·d)`); legal moves use only `d ∈ {1,-1,2,-2}`. -/
def sinHalf : ℤ → K
  | 1 => K.hs
  | -1 => -K.hs
  | 2 => 1
  | -2 => -(1 : K)
  | _ => 0

/-- `cos((π/4)·d)` for the four legal move directions. -/
def cosHalf : ℤ → K
  | 1 => K.hs
  | -1 => K.hs
  | 2 => 0
  | -2 => 0
  | _ => 1

/-- `new THREE.Quaternion().setFromAxisAngle(axisVec, (π/2)·direction)`:
the `rotQuat` built when a move commits (`Scene.tsx`). -/
def rotQuatOf (axis : Axis) (direction : ℤ) : QuatK :=
  let s := sinHalf direction
  let e := (Axis.unitVec axis).toK
  ⟨s * e.x, s * e.y, s * e.z, cosHalf direction⟩

/-- A rational approximation of √2 (`665857/470832`, a Pell convergent,
accurate to `10⁻¹²`), used only to give `Math.round` a total meaning on `K`;
every value this program rounds has zero √2-part, where `roundK` is exact
integer rounding. -/
def sqrt2num : ℤ := 665857

def sqrt2den : ℤ := 470832

/-- `Math.round` on a `K` value: `⌊value + 1/2⌋` (JavaScript rounds halves
up), computed on the integer fraction `(a·Q + b·P)/(d·Q)` with `√2 ≈ P/Q`. -/
def roundK (k : K) : ℤ :=
  let n := k.a * sqrt2den + k.b * sqrt2num
  let m := k.d * sqrt2den
  Int.fdiv (2 * n + m) (2 * m)

def roundVec (v : Vec3K) : Vec3Z := ⟨roundK v.x, roundK v.y, roundK v.z⟩

/-- The move commit of `useCubeAnimation` (`Scene.tsx`) for one piece:
pieces whose position component along the move axis lies in the slice list
get their position rotated by `applyAxisAngle` (the same quaternion) and
rounded, and their quaternion premultiplied by `rotQuat` and normalized; all
other pieces are returned unchanged. -/
def moveCubie (m : MoveT) (c : Cubie) : Cubie :=
  let rotQ := rotQuatOf m.axis m.direction
  if m.slice.contains (c.position.comp m.axis) then
    { c with
      position := roundVec (QuatK.applyToVec c.position.toK rotQ)
      quaternion := QuatK.normalize (QuatK.mul rotQ c.quaternion) }
  else c

/-- The whole move commit: `cubies.map(...)`. -/
def applyMove (cubies : List Cubie) (m : MoveT) : List Cubie :=
  cubies.map (moveCubie m)

/-- Sticker colors (`COLORS` in `types.ts`). -/
def COLORS_U : String := "#ffffff"

def COLORS_D : String := "#ffd500"

def COLORS_L : String := "#ff5800"

def COLORS_R : String := "#b71234"

def COLORS_F : String := "#009b48"

def COLORS_B : String := "#0046ad"

/-- Solve phases, in the order of the engine's rank table. -/
inductive Phase where
  | Scrambled
  | Cross
  | F2L
  | OLL
  | PLL
  | Solved
deriving DecidableEq, Repr

/-- The rank table `phaseValue` of `analyzeCube` (the source's `|| 0`
fallback only guards a missing key; the table is total here). -/
def phaseValue : Phase → ℤ
  | .Scrambled => 0
  | .Cross => 1
  | .F2L => 2
  | .OLL => 3
  | .PLL => 4
  | .Solved => 5

/-- The two F2L sub-tags. -/
inductive F2LTag where
  | firstLayer
  | secondLayer
deriving DecidableEq, Repr

/-- The engine's output record (`AnalysisResult` in `types.ts`); absent
optional fields are `none`. -/
structure AnalysisResult where
  phase : Phase
  baseColor : Option String
  isSolved : Bool
  f2lTag : Option F2LTag
  missingCount : Option ℤ
  ollCase : Option String
  pllCase : Option String
deriving DecidableEq, Repr

/-- `isCenter` (`phaseEngine.ts`): the origin's coordinates have absolute
sum 1. -/
def isCenter (c : Cubie) : Bool :=
  c.initialPosition.x.natAbs + c.initialPosition.y.natAbs + c.initialPosition.z.natAbs = 1

/-- `isEdge`: absolute origin sum 2. -/
def isEdge (c : Cubie) : Bool :=
  c.initialPosition.x.natAbs + c.initialPosition.y.natAbs + c.initialPosition.z.natAbs = 2

/-- `isCorner`: absolute origin sum 3. -/
def isCorner (c : Cubie) : Bool :=
  c.initialPosition.x.natAbs + c.initialPosition.y.natAbs + c.initialPosition.z.natAbs = 3

/-- `isCorrectlyPlaced` (`phaseEngine.ts`): the current center→piece vector,
pulled back through the piece's own rotation, must match the origin
center→piece vector within `0.2` (embedded as squared distance `< 1/25`). -/
def isCorrectlyPlaced (piece center : Cubie) : Bool :=
  let vInit := Vec3Z.sub center.initialPosition piece.initialPosition
  let vCurr := Vec3Z.sub center.position piece.position
  let invPieceQ := QuatK.conj piece.quaternion
  let vCurrLocal := QuatK.applyToVec vCurr.toK invPieceQ
  K.lt (Vec3K.distSq vCurrLocal vInit.toK) (K.mkQ 1 25)

/-- `isOrientedForOLL` (`phaseEngine.ts`): the piece's copy of the top
center's axis sticker direction must be within `0.5` rad of the center's
(the `angleTo` test, embedded through `Vec3K.angleLtHalf`). -/
def isOrientedForOLL (piece topCenter : Cubie) : Bool :=
  let localUp := Vec3K.normalize topCenter.initialPosition.toK
  let centerQ := QuatK.normalize topCenter.quaternion
  let centerUpWorld := QuatK.applyToVec localUp centerQ
  let pieceUpWorld := QuatK.applyToVec localUp (QuatK.normalize piece.quaternion)
  Vec3K.angleLtHalf centerUpWorld pieceUpWorld

/-- The edges whose origin is adjacent to the base center:
`cVec.distanceTo(eVec) < 1.1` on integer origins, i.e. squared distance
`< 121/100`. -/
def crossEdgesOf (edges : List Cubie) (center : Cubie) : List Cubie :=
  edges.filter fun e =>
    100 * Vec3Z.distSq center.initialPosition e.initialPosition < 121

/-- The cross test of a candidate: every adjacent edge correctly placed. -/
def isCrossSolved (edges : List Cubie) (center : Cubie) : Bool :=
  (crossEdgesOf edges center).all fun e => isCorrectlyPlaced e center

/-- `findIndex(v => v !== 0)` on an origin triple, as an axis.  A genuine
center has exactly one nonzero component, so the source's `-1` (all-zero)
case cannot occur for the pieces `analyzeCube` feeds in; the same ternary
chain (`tVec.x !== 0 ? 0 : tVec.y !== 0 ? 1 : 2`) is used verbatim for the
top-layer axis. -/
def findAxisIdx (v : Vec3Z) : Axis :=
  if v.x ≠ 0 then .x else if v.y ≠ 0 then .y else .z

/-- Write `n` into the component of `v` along `ax` (the
`edgeInitPos[baseAxisIndex] = 0` assignment). -/
def Vec3Z.setComp (v : Vec3Z) (ax : Axis) (n : ℤ) : Vec3Z :=
  match ax with
  | .x => ⟨n, v.y, v.z⟩
  | .y => ⟨v.x, n, v.z⟩
  | .z => ⟨v.x, v.y, n⟩

/-- The three F2L counters of `analyzeCube`. -/
structure F2LCount where
  pairs : ℤ
  corners : ℤ
  edges : ℤ
deriving DecidableEq, Repr

/-- The F2L counting loop of `analyzeCube`: over the corners sharing the
base-axis coordinate with the center (`|Δ| < 0.1` on integers, i.e.
equality), count solved corners, solved paired edges (edge origin = corner
origin with the base axis zeroed, matched within `0.1` per component), and
solved pairs. -/
def f2lCounts (edges corners : List Cubie) (center : Cubie) : F2LCount :=
  let baseAxis := findAxisIdx center.initialPosition
  let baseCorners := corners.filter fun c =>
    10 * (c.initialPosition.comp baseAxis - center.initialPosition.comp baseAxis).natAbs < 1
  baseCorners.foldl (fun acc corner =>
    let isCornerSolved := isCorrectlyPlaced corner center
    let acc1 : F2LCount :=
      { acc with corners := acc.corners + if isCornerSolved then 1 else 0 }
    let edgeInitPos := corner.initialPosition.setComp baseAxis 0
    match edges.find? (fun e =>
        10 * (e.initialPosition.x - edgeInitPos.x).natAbs < 1 &&
        10 * (e.initialPosition.y - edgeInitPos.y).natAbs < 1 &&
        10 * (e.initialPosition.z - edgeInitPos.z).natAbs < 1) with
    | some edge =>
      let isEdgeSolved := isCorrectlyPlaced edge center
      { acc1 with
        edges := acc1.edges + if isEdgeSolved then 1 else 0
        pairs := acc1.pairs + if isCornerSolved && isEdgeSolved then 1 else 0 }
    | none => acc1) ⟨0, 0, 0⟩

/-- The world-space "up" of the top face: the top center's normalized origin
axis rotated by its current quaternion (`ollPatterns.ts` / `pllPatterns.ts`). -/
def topUpWorld (topCenter : Cubie) : Vec3K :=
  QuatK.applyToVec (Vec3K.normalize topCenter.initialPosition.toK) topCenter.quaternion

/-- The oriented-edge filter of `identify2LookOLL`: top edges whose rotated
copy of the center's axis direction has `dot > 0.9` with the world up. -/
def ollOrientedEdges (topPieces : List Cubie) (topCenter : Cubie) : List Cubie :=
  let up := topUpWorld topCenter
  (topPieces.filter isEdge).filter fun e =>
    let localUp := Vec3K.normalize topCenter.initialPosition.toK
    let currentUp := QuatK.applyToVec localUp e.quaternion
    K.lt (K.mkQ 9 10) (Vec3K.dot currentUp up)

/-- The oriented-corner filter of `identify2LookOLL` (same test on the top
corners). -/
def ollOrientedCorners (topPieces : List Cubie) (topCenter : Cubie) : List Cubie :=
  let up := topUpWorld topCenter
  (topPieces.filter isCorner).filter fun c =>
    let localUp := Vec3K.normalize topCenter.initialPosition.toK
    let currentUp := QuatK.applyToVec localUp c.quaternion
    K.lt (K.mkQ 9 10) (Vec3K.dot currentUp up)

/-- `getStickerNormal` of the OLL corner stage: the center's axis direction
rotated by the corner's quaternion. -/
def ollStickerNormal (topCenter c : Cubie) : Vec3K :=
  QuatK.applyToVec (Vec3K.normalize topCenter.initialPosition.toK) c.quaternion

/-- The unordered index pairs `i < j` of a list, in the nesting order of the
source's double loop. -/
def listPairs {α : Type} : List α → List (α × α)
  | [] => []
  | a :: rest => rest.map (fun b => (a, b)) ++ listPairs rest

/-- The headlight-pair count of the 0-oriented-corner OLL case: adjacent
corner pairs (current distance not `> 2.2`, i.e. squared distance `≤ 4.84`)
whose sticker normals have `dot > 0.9`. -/
def ollHeadlightPairs (topCenter : Cubie) (corners : List Cubie) : ℕ :=
  ((listPairs corners).filter fun p =>
    decide (100 * Vec3Z.distSq p.1.position p.2.position ≤ 484) &&
      K.lt (K.mkQ 9 10)
        (Vec3K.dot (ollStickerNormal topCenter p.1) (ollStickerNormal topCenter p.2))).length

/-- `identify2LookOLL` (`ollPatterns.ts`).  Every JavaScript code path
returns a string, so the Lean embedding returns `String` directly.  The
impossible list-shape fallbacks (an indexed element missing although the
length was just checked) return "Unknown". -/
def identify2LookOLL (topPieces : List Cubie) (topCenter : Cubie) : String :=
  let up := topUpWorld topCenter
  let corners := topPieces.filter isCorner
  let orientedEdges := ollOrientedEdges topPieces topCenter
  let edgeCount := orientedEdges.length
  if edgeCount < 4 then
    if edgeCount = 0 then "Dot"
    else if edgeCount = 2 then
      match orientedEdges with
      | e0 :: e1 :: _ =>
        -- adjacent pair: current-position distance < 1.8 (squared < 3.24)
        if 100 * Vec3Z.distSq e0.position e1.position < 324 then "L-Shape" else "Line"
      | _ => "Unknown"
    else "Unknown"
  else
    let orientedCorners := ollOrientedCorners topPieces topCenter
    let orientedCount := orientedCorners.length
    let centerPos := topCenter.position.toK
    if orientedCount = 0 then
      let headlightPairs := ollHeadlightPairs topCenter corners
      if 2 ≤ headlightPairs then "H"
      else if headlightPairs = 1 then "Pi"
      else "Unknown"
    else if orientedCount = 1 then
      match orientedCorners with
      | orientedC :: _ =>
        let oPosRel := Vec3K.sub orientedC.position.toK centerPos
        let tangentCW := Vec3K.normalize (Vec3K.cross up oPosRel)
        -- best-aligned other corner (strictly improving fold, first maximum wins)
        let neighbor :=
          (corners.filter fun c => c.id ≠ orientedC.id).foldl
            (fun acc c =>
              let d := Vec3K.dot
                (Vec3K.normalize (Vec3K.sub c.position.toK centerPos)) tangentCW
              match acc with
              | none => some (c, d)
              | some best => if K.lt best.2 d then some (c, d) else some best)
            (none : Option (Cubie × K))
        match neighbor with
        | some best =>
          let nPosRel := Vec3K.sub best.1.position.toK centerPos
          let nSticker := ollStickerNormal topCenter best.1
          let twistVal := Vec3K.dot (Vec3K.cross nPosRel nSticker) up
          if K.lt 0 twistVal then "Sune" else "Anti-Sune"
        | none => "Unknown"
      | _ => "Unknown"
    else if orientedCount = 2 then
      match orientedCorners with
      | c0 :: c1 :: _ =>
        -- diagonal: current distance > 2.2 (squared > 4.84)
        if 484 < 100 * Vec3Z.distSq c0.position c1.position then "L"
        else
          let unoriented := corners.filter fun c => ¬ orientedCorners.contains c
          if unoriented.length ≠ 2 then "Unknown"
          else
            match unoriented with
            | u0 :: u1 :: _ =>
              if K.lt (K.mkQ 8 10)
                  (Vec3K.dot (ollStickerNormal topCenter u0) (ollStickerNormal topCenter u1))
              then "U" else "T"
            | _ => "Unknown"
      | _ => "Unknown"
    else "Unknown"

/-- Sticker color letters of `pllPatterns.ts`. -/
inductive Col where
  | R
  | L
  | U
  | D
  | F
  | B
deriving DecidableEq, Repr

/-- `isOppositeColor` (`pllPatterns.ts`). -/
def isOppositeColor (c1 c2 : Col) : Bool :=
  (c1 = .U && c2 = .D) || (c1 = .D && c2 = .U) ||
  (c1 = .L && c2 = .R) || (c1 = .R && c2 = .L) ||
  (c1 = .F && c2 = .B) || (c1 = .B && c2 = .F)

/-- The `localNormals` table of `getStickerColor`, in source order. -/
def localNormals : List (Vec3Z × Col) :=
  [(⟨1, 0, 0⟩, .R), (⟨-1, 0, 0⟩, .L), (⟨0, 1, 0⟩, .U),
   (⟨0, -1, 0⟩, .D), (⟨0, 0, 1⟩, .F), (⟨0, 0, -1⟩, .B)]

/-- `getStickerColor` (`pllPatterns.ts`): keep the normals whose nonzero
components match the piece's origin (the sticker exists), rotate each by the
piece's quaternion, and return the color of the best alignment with
`direction` strictly above the starting threshold `0.9`. -/
def getStickerColor (cubie : Cubie) (direction : Vec3K) : Option Col :=
  let p := cubie.initialPosition
  let validNormals := localNormals.filter fun n =>
    decide ((n.1.x = 0 ∨ p.x = n.1.x) ∧ (n.1.y = 0 ∨ p.y = n.1.y) ∧
            (n.1.z = 0 ∨ p.z = n.1.z))
  (validNormals.foldl (fun acc n =>
    let worldNormal := QuatK.applyToVec n.1.toK cubie.quaternion
    let d := Vec3K.dot worldNormal direction
    if K.lt acc.2 d then (some n.2, d) else acc)
    ((none : Option Col), K.mkQ 9 10)).1

/-- One analyzed side face of `identifyPLL`. -/
structure PLLFace where
  dir : Vec3Z
  c1 : Option Col
  c2 : Option Col
  e : Option Col
  isHeadlights : Bool
  isBar : Bool
deriving DecidableEq, Repr

/-- The six candidate side directions of `identifyPLL`, in source order. -/
def pllCandidates : List Vec3Z :=
  [⟨1, 0, 0⟩, ⟨-1, 0, 0⟩, ⟨0, 1, 0⟩, ⟨0, -1, 0⟩, ⟨0, 0, 1⟩, ⟨0, 0, -1⟩]

/-- `Math.abs(v.dot(up)) < 0.1`. -/
def K.absLtTenth (x : K) : Bool :=
  K.lt x (K.mkQ 1 10) && K.lt (K.mkQ (-1) 10) x

/-- The four horizontal directions: candidates nearly orthogonal to up. -/
def sideDirsOf (up : Vec3K) : List Vec3Z :=
  pllCandidates.filter fun v => K.absLtTenth (Vec3K.dot v.toK up)

/-- The per-side analysis of `identifyPLL`: the side's two corners and edge
(current position strictly on that side of the top center: integer dot
`> 0.5`), their sticker colors facing the side, and the headlights/bar
flags. -/
def pllFaces (topPieces : List Cubie) (topCenter : Cubie) : List PLLFace :=
  let up := topUpWorld topCenter
  let corners := topPieces.filter isCorner
  let edges := topPieces.filter isEdge
  (sideDirsOf up).map fun dir =>
    let centerPos := topCenter.position
    let onSide := fun (c : Cubie) =>
      1 < 2 * Vec3Z.dot (Vec3Z.sub c.position centerPos) dir
    let faceCorners := corners.filter onSide
    let faceEdge := edges.find? onSide
    let cs : Option Col × Option Col :=
      match faceCorners with
      | [a, b] => (getStickerColor a dir.toK, getStickerColor b dir.toK)
      | _ => (none, none)
    let e : Option Col :=
      match faceEdge with
      | some ed => getStickerColor ed dir.toK
      | none => none
    let c1 := cs.1
    let c2 := cs.2
    let isBar := c1.isSome && c2.isSome && e.isSome && c1 == c2 && c1 == e
    let isHeadlights := c1.isSome && c2.isSome && c1 == c2
    { dir := dir, c1 := c1, c2 := c2, e := e,
      isHeadlights := isHeadlights, isBar := isBar }

/-- `identifyPLL` (`pllPatterns.ts`).  Every JavaScript code path returns a
string, so the embedding returns `String`. -/
def identifyPLL (topPieces : List Cubie) (topCenter : Cubie) : String :=
  let up := topUpWorld topCenter
  let faces := pllFaces topPieces topCenter
  let headlightsCount := (faces.filter (fun f => f.isHeadlights)).length
  let solvedBarsCount := (faces.filter (fun f => f.isBar)).length
  if headlightsCount = 0 then "Diagonal"
  else if headlightsCount = 1 then "Headlights"
  else if headlightsCount = 4 then
    if solvedBarsCount = 4 then
      if ((faces.map (fun f => f.c1)).dedup).length = 4 then "Solved"
      else "Unknown"
    else if solvedBarsCount = 0 then
      match faces.find? (fun f => f.c1.isSome && f.e.isSome) with
      | some f =>
        match f.c1, f.e with
        | some c, some e => if isOppositeColor c e then "PLL (H)" else "PLL (Z)"
        | _, _ => "PLL (Z)"
      | none => "PLL (Z)"
    else if solvedBarsCount = 1 then
      match faces.find? (fun f => f.isBar) with
      | some backFace =>
        let frontDir := Vec3Z.sub ⟨0, 0, 0⟩ backFace.dir
        let frontFace := faces.find? fun f => 9 < 10 * Vec3Z.dot f.dir frontDir
        let rightDir := Vec3K.cross up frontDir.toK
        let rightFace := faces.find? fun f =>
          K.lt (K.mkQ 9 10) (Vec3K.dot f.dir.toK rightDir)
        match frontFace, rightFace with
        | some ff, some rf =>
          match ff.e, rf.c1 with
          | some fe, some rc => if fe = rc then "PLL (Ua)" else "PLL (Ub)"
          | _, _ => "PLL (Ua)"
        | _, _ => "PLL (Ua)"
      | none => "PLL (Ua)"
    else "PLL (Z)"
  else "Unknown"

/-- The per-candidate portion of an `analyzeCube` loop iteration: the phase
reached from one base center together with its optional tags. -/
structure CandResult where
  phase : Phase
  f2lTag : Option F2LTag
  missingCount : Option ℤ
  ollCase : Option String
  pllCase : Option String
deriving DecidableEq, Repr

/-- One iteration body of the `analyzeCube` candidate loop: `none` when the
candidate's cross is not solved (the `continue`), otherwise the phase the
candidate reaches with its tags.  This is the loop body of the source
verbatim, factored into a function of the snapshot and the candidate
center. -/
def evalCandidate (cubies : List Cubie) (center : Cubie) : Option CandResult :=
  let edges := cubies.filter isEdge
  let corners := cubies.filter isCorner
  let centers := cubies.filter isCenter
  if isCrossSolved edges center then
    let counts := f2lCounts edges corners center
    if counts.pairs = 4 then
      -- the face opposite the base: origin dot < -0.9 (integers: ≤ -1)
      match centers.find? (fun c =>
          10 * Vec3Z.dot center.initialPosition c.initialPosition < -9) with
      | some topCenter =>
        let ax := findAxisIdx topCenter.initialPosition
        let topPieces := (edges ++ corners).filter fun p =>
          10 * (p.initialPosition.comp ax - topCenter.initialPosition.comp ax).natAbs < 1
        if topPieces.all (fun p => isOrientedForOLL p topCenter) then
          let pll := identifyPLL topPieces topCenter
          if pll = "Solved" then
            some ⟨Phase.Solved, none, none, none, none⟩
          else
            some ⟨Phase.PLL, none, none, none, some pll⟩
        else
          some ⟨Phase.OLL, none, none,
            some (identify2LookOLL topPieces topCenter), none⟩
      | none => some ⟨Phase.OLL, none, none, none, none⟩
    else
      if 2 ≤ counts.pairs then
        some ⟨Phase.F2L, none, some (4 - counts.pairs), none, none⟩
      else if counts.corners = 4 then
        some ⟨Phase.F2L, some F2LTag.secondLayer, some (4 - counts.edges), none, none⟩
      else
        some ⟨Phase.F2L, some F2LTag.firstLayer, some (4 - counts.corners), none, none⟩
  else none

/-- The running best of the candidate loop (`bestPhase`, `bestBase`, …). -/
structure BestState where
  phase : Phase
  base : Option Cubie
  f2lTag : Option F2LTag
  missingCount : Option ℤ
  ollCase : Option String
  pllCase : Option String
deriving DecidableEq, Repr

/-- The selection step at the end of one candidate iteration: strictly
better rank replaces the best wholesale; an exact rank tie within F2L keeps
the candidate with the smaller `missingCount` (the `|| 0` defaulting of the
source is `Option.getD 0`). -/
def stepBest (cubies : List Cubie) (best : BestState) (center : Cubie) : BestState :=
  match evalCandidate cubies center with
  | none => best
  | some r =>
    let phaseRank := phaseValue r.phase
    if phaseValue best.phase < phaseRank then
      { phase := r.phase, base := some center, f2lTag := r.f2lTag,
        missingCount := r.missingCount, ollCase := r.ollCase, pllCase := r.pllCase }
    else if phaseRank = phaseValue best.phase ∧ r.phase = Phase.F2L then
      if r.missingCount.getD 0 < best.missingCount.getD 0 then
        { best with
          base := some center
          f2lTag := r.f2lTag
          missingCount := r.missingCount }
      else best
    else best

/-- The base-face color table at the end of `analyzeCube`. -/
def baseColorOf (b : Cubie) : Option String :=
  let ip := b.initialPosition
  if ip.y = 1 then some COLORS_U
  else if ip.y = -1 then some COLORS_D
  else if ip.x = 1 then some COLORS_R
  else if ip.x = -1 then some COLORS_L
  else if ip.z = 1 then some COLORS_F
  else if ip.z = -1 then some COLORS_B
  else none

/-- `analyzeCube` (`phaseEngine.ts`): evaluate every center as a candidate
base, keep the best, and fall back to the `Cross`/`null`/`false` record when
no candidate was accepted. -/
def analyzeCube (cubies : List Cubie) : AnalysisResult :=
  let centers := cubies.filter isCenter
  let best := centers.foldl (stepBest cubies)
    ⟨Phase.Scrambled, none, none, none, none, none⟩
  if best.phase = Phase.Scrambled then
    { phase := Phase.Cross, baseColor := none, isSolved := false,
      f2lTag := none, missingCount := none, ollCase := none, pllCase := none }
  else
    { phase := best.phase
      baseColor := best.base.bind baseColorOf
      isSolved := decide (best.phase = Phase.Solved)
      f2lTag := best.f2lTag
      missingCount := best.missingCount
      ollCase := best.ollCase
      pllCase := best.pllCase }

/-- Positive-denominator bookkeeping: every `K` the program constructs has a
positive denominator. -/
def K.posDen (x : K) : Prop := 0 < x.d

instance (x : K) : Decidable x.posDen := by
  unfold K.posDen
  infer_instance

/-- Positive denominators of a `K` vector. -/
def Vec3K.posDenV (w : Vec3K) : Prop := w.x.posDen ∧ w.y.posDen ∧ w.z.posDen

instance (w : Vec3K) : Decidable w.posDenV := by
  unfold Vec3K.posDenV
  infer_instance

/-- Positive denominators of a quaternion. -/
def QuatK.posDenQ (q : QuatK) : Prop :=
  q.x.posDen ∧ q.y.posDen ∧ q.z.posDen ∧ q.w.posDen

instance (q : QuatK) : Decidable q.posDenQ := by
  unfold QuatK.posDenQ
  infer_instance

/-- The binary octahedral group: the 48 unit quaternions (in canonical `K`
representation) that represent the 24 rotations of the cube.  Eight with a
single `±1` component, sixteen with all components `±1/2`, twenty-four with
two components `±√2/2`. -/
def binOct48 : List QuatK :=
  let u : List ℤ := [1, -1]
  let axisQs := u.flatMap fun s =>
    [⟨K.ofZ s, 0, 0, 0⟩, ⟨0, K.ofZ s, 0, 0⟩, ⟨0, 0, K.ofZ s, 0⟩, ⟨0, 0, 0, K.ofZ s⟩]
  let halfQs := u.flatMap fun s1 => u.flatMap fun s2 => u.flatMap fun s3 =>
    u.map fun s4 => (⟨K.mkQ s1 2, K.mkQ s2 2, K.mkQ s3 2, K.mkQ s4 2⟩ : QuatK)
  let hsK : ℤ → K := fun s => ⟨0, s, 2⟩
  let pairPos : List (ℕ × ℕ) := [(0, 1), (0, 2), (0, 3), (1, 2), (1, 3), (2, 3)]
  let mkPair : ℕ × ℕ → ℤ → ℤ → QuatK := fun p s1 s2 =>
    let comp : ℕ → K := fun k =>
      if k = p.1 then hsK s1 else if k = p.2 then hsK s2 else 0
    ⟨comp 0, comp 1, comp 2, comp 3⟩
  let sqrtQs := pairPos.flatMap fun p => u.flatMap fun s1 => u.map fun s2 =>
    mkPair p s1 s2
  axisQs ++ halfQs ++ sqrtQs

/-- The images of the three basis vectors under a quaternion's vector
action: the rotation the quaternion represents (the action `applyToVec` is
linear in the vector, so these three images determine it). -/
def basisImages (q : QuatK) : Vec3K × Vec3K × Vec3K :=
  (QuatK.applyToVec (Vec3Z.mk 1 0 0).toK q,
   QuatK.applyToVec (Vec3Z.mk 0 1 0).toK q,
   QuatK.applyToVec (Vec3Z.mk 0 0 1).toK q)

/-- 3×3 integer determinant of three column vectors. -/
def det3 (u v w : Vec3Z) : ℤ :=
  u.x * (v.y * w.z - v.z * w.y) - u.y * (v.x * w.z - v.z * w.x) +
    u.z * (v.x * w.y - v.y * w.x)

/-- The rotation group of the cube, as the signed permutation matrices of
determinant 1, each given by its three columns (the images of the basis
vectors).  `cubeRot24_card` below checks that there are exactly 24. -/
def cubeRot24 : List (Vec3Z × Vec3Z × Vec3Z) :=
  let units : List Vec3Z :=
    [⟨1, 0, 0⟩, ⟨-1, 0, 0⟩, ⟨0, 1, 0⟩, ⟨0, -1, 0⟩, ⟨0, 0, 1⟩, ⟨0, 0, -1⟩]
  (units.flatMap fun u => units.flatMap fun v => units.map fun w => (u, v, w)).filter
    fun t => Vec3Z.dot t.1 t.2.1 = 0 && Vec3Z.dot t.1 t.2.2 = 0 &&
      Vec3Z.dot t.2.1 t.2.2 = 0 && det3 t.1 t.2.1 t.2.2 = 1

/-- Membership (by represented value) in a quaternion list. -/
def QuatK.memB (q : QuatK) (l : List QuatK) : Bool := l.any (QuatK.eqv q)

/-- A quaternion acts as one of the 24 cube rotations. -/
def actsAsCubeRot (q : QuatK) : Bool :=
  cubeRot24.any fun t =>
    Vec3K.eqv (basisImages q).1 t.1.toK &&
      Vec3K.eqv (basisImages q).2.1 t.2.1.toK &&
      Vec3K.eqv (basisImages q).2.2 t.2.2.toK

/-- A legal move object: slice coordinates inside the cube layers and one of
the four turn directions (`types.ts`: `direction: 1 | -1 | 2 | -2`). -/
def ValidMove (m : MoveT) : Prop :=
  (∀ s ∈ m.slice, s = -1 ∨ s = 0 ∨ s = 1) ∧
    (m.direction = 1 ∨ m.direction = -1 ∨ m.direction = 2 ∨ m.direction = -2)

/-- Snapshots reachable from the initial state by legal moves. -/
inductive Reachable : List Cubie → Prop where
  | init : Reachable getInitialState
  | step {s : List Cubie} {m : MoveT} :
      Reachable s → ValidMove m → Reachable (applyMove s m)

/-- The state invariant: the 27 positions are a permutation of the lattice
and every orientation quaternion lies in the binary octahedral group. -/
def StateInv (s : List Cubie) : Prop :=
  (s.map (fun c => c.position)).Perm latticeList ∧
    ∀ c ∈ s, QuatK.memB c.quaternion binOct48 = true ∧ c.quaternion.posDenQ

/-- The four legal directions. -/
def dirs4 : List ℤ := [1, -1, 2, -2]

/-- The three axes. -/
def axes3 : List Axis := [Axis.x, Axis.y, Axis.z]

/-- The eight possible intersections of a slice list with `{-1, 0, 1}`
(as sublists of `[-1, 0, 1]`). -/
def sliceSubsets : List (List ℤ) :=
  [[], [-1], [0], [1], [-1, 0], [-1, 1], [0, 1], [-1, 0, 1]]

/-- The position update a move applies to one piece (the slice test plus the
rotate-and-round of the commit), as a function of the position alone. -/
def posStep (ax : Axis) (dv : ℤ) (sl : List ℤ) (p : Vec3Z) : Vec3Z :=
  if sl.contains (p.comp ax) then
    roundVec (QuatK.applyToVec p.toK (rotQuatOf ax dv))
  else p

/-- The same per-piece position update written with the integer
`rotateVector`; `applyQuaternion`-then-round agrees with it on the lattice
(`posStep_eq_posStepZ`). -/
def posStepZ (ax : Axis) (dv : ℤ) (sl : List ℤ) (p : Vec3Z) : Vec3Z :=
  if sl.contains (p.comp ax) then rotateVector p ax dv else p

/-- Integer cross product (for the spec-side reference rotation). -/
def Vec3Z.crossZ (u v : Vec3Z) : Vec3Z :=
  ⟨u.y * v.z - u.z * v.y, u.z * v.x - u.x * v.z, u.x * v.y - u.y * v.x⟩

/-- Integer scalar multiple. -/
def Vec3Z.smulZ (n : ℤ) (v : Vec3Z) : Vec3Z := ⟨n * v.x, n * v.y, n * v.z⟩

/-- Integer vector sum. -/
def Vec3Z.addZ (u v : Vec3Z) : Vec3Z := ⟨u.x + v.x, u.y + v.y, u.z + v.z⟩

/-- The spec's reference quarter turn (§4.1): "apply the standard
right-hand-rule 90° rotation about `axis`" with sign `dir`, which is
`v ↦ dir·(e × v) + (e·v)·e` for the unit axis vector `e` (e.g. about x:
`(x,y,z) ↦ (x, -dir·z, dir·y)`).  Defined from the spec's words, to be
compared with the source's `rotateVector`. -/
def specRotateQuarter (v : Vec3Z) (axis : Axis) (dir : ℤ) : Vec3Z :=
  let e := axis.unitVec
  Vec3Z.addZ (Vec3Z.smulZ dir (e.crossZ v)) (Vec3Z.smulZ (Vec3Z.dot e v) e)

/-- The spec's reference half turn (§4.1): "negate the two axes orthogonal
to `axis`, leave the `axis` coordinate unchanged", i.e.
`v ↦ 2(e·v)·e - v`.  Defined from the spec's words. -/
def specRotateHalf (v : Vec3Z) (axis : Axis) : Vec3Z :=
  let e := axis.unitVec
  Vec3Z.addZ (Vec3Z.smulZ (2 * Vec3Z.dot e v) e) (Vec3Z.smulZ (-1) v)

/-- The value of a `K` as the coordinate pair of `ℚ(√2)`:
`⟨a, b, d⟩ ↦ (a/d, b/d)` (the value is `a/d + (b/d)·√2`).  Used only in
proofs, to reason about division-free computations algebraically. -/
def K.val (x : K) : ℚ × ℚ := (x.a / x.d, x.b / x.d)

/-- Addition on ℚ(√2)-coordinates. -/
def q2add (p q : ℚ × ℚ) : ℚ × ℚ := (p.1 + q.1, p.2 + q.2)

/-- Multiplication on ℚ(√2)-coordinates (`√2² = 2`). -/
def q2mul (p q : ℚ × ℚ) : ℚ × ℚ := (p.1 * q.1 + 2 * (p.2 * q.2), p.1 * q.2 + p.2 * q.1)

/-- Negation on ℚ(√2)-coordinates. -/
def q2neg (p : ℚ × ℚ) : ℚ × ℚ := (-p.1, -p.2)

/-- Subtraction on ℚ(√2)-coordinates. -/
def q2sub (p q : ℚ × ℚ) : ℚ × ℚ := q2add p (q2neg q)

/-- Values of a `K` vector. -/
def Vec3K.val (w : Vec3K) : (ℚ × ℚ) × (ℚ × ℚ) × (ℚ × ℚ) := (w.x.val, w.y.val, w.z.val)

/-- Values of a `K` quaternion. -/
def QuatK.val (q : QuatK) : (ℚ × ℚ) × (ℚ × ℚ) × (ℚ × ℚ) × (ℚ × ℚ) :=
  (q.x.val, q.y.val, q.z.val, q.w.val)

/-- `applyToVec` on ℚ(√2)-coordinate vectors (same formula). -/
def applyToVecQ2 (v : (ℚ × ℚ) × (ℚ × ℚ) × (ℚ × ℚ))
    (q : (ℚ × ℚ) × (ℚ × ℚ) × (ℚ × ℚ) × (ℚ × ℚ)) :
    (ℚ × ℚ) × (ℚ × ℚ) × (ℚ × ℚ) :=
  let qx := q.1
  let qy := q.2.1
  let qz := q.2.2.1
  let qw := q.2.2.2
  let cr1 := (q2sub (q2mul qy v.2.2) (q2mul qz v.2.1),
              q2sub (q2mul qz v.1) (q2mul qx v.2.2),
              q2sub (q2mul qx v.2.1) (q2mul qy v.1))
  let two : ℚ × ℚ := (2, 0)
  let t := (q2mul two cr1.1, q2mul two cr1.2.1, q2mul two cr1.2.2)
  let cr2 := (q2sub (q2mul qy t.2.2) (q2mul qz t.2.1),
              q2sub (q2mul qz t.1) (q2mul qx t.2.2),
              q2sub (q2mul qx t.2.1) (q2mul qy t.1))
  (q2add v.1 (q2add (q2mul qw t.1) cr2.1),
   q2add v.2.1 (q2add (q2mul qw t.2.1) cr2.2.1),
   q2add v.2.2 (q2add (q2mul qw t.2.2) cr2.2.2))

/-- Hamilton product on ℚ(√2)-coordinate quaternions (same formula). -/
def qmulQ2 (q r : (ℚ × ℚ) × (ℚ × ℚ) × (ℚ × ℚ) × (ℚ × ℚ)) :
    (ℚ × ℚ) × (ℚ × ℚ) × (ℚ × ℚ) × (ℚ × ℚ) :=
  let qx := q.1
  let qy := q.2.1
  let qz := q.2.2.1
  let qw := q.2.2.2
  let rx := r.1
  let ry := r.2.1
  let rz := r.2.2.1
  let rw := r.2.2.2
  (q2sub (q2add (q2add (q2mul qx rw) (q2mul qw rx)) (q2mul qy rz)) (q2mul qz ry),
   q2sub (q2add (q2add (q2mul qy rw) (q2mul qw ry)) (q2mul qz rx)) (q2mul qx rz),
   q2sub (q2add (q2add (q2mul qz rw) (q2mul qw rz)) (q2mul qx ry)) (q2mul qy rx),
   q2sub (q2sub (q2sub (q2mul qw rw) (q2mul qx rx)) (q2mul qy ry)) (q2mul qz rz))

/-- A `K` whose value is a plain integer (`√2`-part zero, denominator
dividing the numerator). -/
def K.isIntB (x : K) : Bool := decide (x.b = 0 ∧ x.a % x.d = 0)

/-- The integer value of an integer-valued `K`. -/
def K.toInt (x : K) : ℤ := x.a / x.d

/-- Componentwise integer-valuedness of a `K` vector. -/
def Vec3K.isIntVecB (w : Vec3K) : Bool :=
  K.isIntB w.x && K.isIntB w.y && K.isIntB w.z

/-- The integer vector of an integer-valued `K` vector. -/
def Vec3K.toIntVec (w : Vec3K) : Vec3Z := ⟨w.x.toInt, w.y.toInt, w.z.toInt⟩

/-- The three basis vectors. -/
def exZ : Vec3Z := ⟨1, 0, 0⟩

def eyZ : Vec3Z := ⟨0, 1, 0⟩

def ezZ : Vec3Z := ⟨0, 0, 1⟩

/-- The integer columns of a quaternion's action (the images of the basis
vectors), extracted through `toIntVec`; exact for quaternions of the binary
octahedral group. -/
def intCols (q : QuatK) : Vec3Z × Vec3Z × Vec3Z :=
  ((QuatK.applyToVec exZ.toK q).toIntVec,
   (QuatK.applyToVec eyZ.toK q).toIntVec,
   (QuatK.applyToVec ezZ.toK q).toIntVec)

/-- The integer matrix action of a cube-group quaternion on an integer
vector (the linear extension of the basis images). -/
def intAction (q : QuatK) (u : Vec3Z) : Vec3Z :=
  let c := intCols q
  ⟨u.x * c.1.x + u.y * c.2.1.x + u.z * c.2.2.x,
   u.x * c.1.y + u.y * c.2.1.y + u.z * c.2.2.y,
   u.x * c.1.z + u.y * c.2.1.z + u.z * c.2.2.z⟩

/-- The intersection of a slice list with the lattice layer coordinates, as
a sublist of `[-1, 0, 1]` (only membership of `-1`, `0`, `1` in the slice
can matter for lattice positions). -/
def canonSlice (l : List ℤ) : List ℤ :=
  ([-1, 0, 1] : List ℤ).filter fun v => l.contains v

/-- A fixed sample move: quarter turn of the `x = 1` layer. -/
def moveX1 : MoveT := ⟨Axis.x, [1], 1⟩

/-- A fixed sample move: quarter turn of the `y = 1` layer. -/
def moveY1 : MoveT := ⟨Axis.y, [1], 1⟩

/-- Witness snapshot on which no candidate passes the cross test: the
initial state after the two quarter turns `x = 1` and `y = 1`. -/
def c6State : List Cubie := applyMove (applyMove getInitialState moveX1) moveY1

/-- Witness snapshot for the F2L branch table: the solved state with the
three middle-layer edges `(1,0,1) → (1,0,-1) → (-1,0,-1) → (1,0,1)` cycled
in position (orientations left at identity).  Relative to the bottom center
`(0,-1,0)` the cross and all four corners are solved, one F2L edge is
solved, and one pair is solved. -/
def c5State : List Cubie :=
  getInitialState.map fun c =>
    if c.initialPosition = ⟨1, 0, 1⟩ then { c with position := ⟨1, 0, -1⟩ }
    else if c.initialPosition = ⟨1, 0, -1⟩ then { c with position := ⟨-1, 0, -1⟩ }
    else if c.initialPosition = ⟨-1, 0, -1⟩ then { c with position := ⟨1, 0, 1⟩ }
    else c

/-- The bottom center of the solved state (id 10 in enumeration order). -/
def c5Center : Cubie :=
  { id := 10, initialPosition := ⟨0, -1, 0⟩, position := ⟨0, -1, 0⟩,
    rotation := ⟨0, 0, 0⟩, quaternion := QuatK.one }

/-- 180° rotation about the z axis (an edge-flipping orientation). -/
def qFlipZ : QuatK := ⟨0, 0, K.ofZ 1, 0⟩

/-- Top center for the OLL edge-stage counterexample: the `y = 1` center,
solved, identity orientation. -/
def c8TopCenter : Cubie :=
  { id := 16, initialPosition := ⟨0, 1, 0⟩, position := ⟨0, 1, 0⟩,
    rotation := ⟨0, 0, 0⟩, quaternion := QuatK.one }

/-- Top-layer pieces for the OLL edge-stage counterexample: the two edges
with adjacent origins `(1,1,0)` and `(0,1,1)` are oriented (identity
quaternions) but currently sit at the opposite positions `(1,1,0)` and
`(-1,1,0)`; the two other top edges are flipped (unoriented). -/
def c8Pieces : List Cubie :=
  [{ id := 0, initialPosition := ⟨1, 1, 0⟩, position := ⟨1, 1, 0⟩,
     rotation := ⟨0, 0, 0⟩, quaternion := QuatK.one },
   { id := 1, initialPosition := ⟨0, 1, 1⟩, position := ⟨-1, 1, 0⟩,
     rotation := ⟨0, 0, 0⟩, quaternion := QuatK.one },
   { id := 2, initialPosition := ⟨-1, 1, 0⟩, position := ⟨0, 1, 1⟩,
     rotation := ⟨0, 0, 0⟩, quaternion := qFlipZ },
   { id := 3, initialPosition := ⟨0, 1, -1⟩, position := ⟨0, 1, -1⟩,
     rotation := ⟨0, 0, 0⟩, quaternion := qFlipZ }]

/-- The 120° clockwise twist about the `(1,1,1)` corner diagonal. -/
def qTwist111 : QuatK := ⟨K.mkQ 1 2, K.mkQ 1 2, K.mkQ 1 2, K.mkQ 1 2⟩

/-- Witness piece for orientation sensitivity: the `(1,1,1)` corner sitting
in its own slot but twisted 120°. -/
def c9Piece : Cubie :=
  { id := 26, initialPosition := ⟨1, 1, 1⟩, position := ⟨1, 1, 1⟩,
    rotation := ⟨0, 0, 0⟩, quaternion := qTwist111 }

/-- Witness reference center: the solved `y = 1` center. -/
def c9Center : Cubie :=
  { id := 16, initialPosition := ⟨0, 1, 0⟩, position := ⟨0, 1, 0⟩,
    rotation := ⟨0, 0, 0⟩, quaternion := QuatK.one }

@[simp] theorem K.add_a (x y : K) : (x + y).a = x.a * y.d + y.a * x.d := rfl

@[simp] theorem K.add_b (x y : K) : (x + y).b = x.b * y.d + y.b * x.d := rfl

@[simp] theorem K.add_d (x y : K) : (x + y).d = x.d * y.d := rfl

@[simp] theorem K.mul_a (x y : K) : (x * y).a = x.a * y.a + 2 * (x.b * y.b) := rfl

@[simp] theorem K.mul_b (x y : K) : (x * y).b = x.a * y.b + x.b * y.a := rfl

@[simp] theorem K.mul_d (x y : K) : (x * y).d = x.d * y.d := rfl

@[simp] theorem K.neg_a (x : K) : (-x).a = -x.a := rfl

@[simp] theorem K.neg_b (x : K) : (-x).b = -x.b := rfl

@[simp] theorem K.neg_d (x : K) : (-x).d = x.d := rfl

@[simp] theorem K.sub_a (x y : K) : (x - y).a = x.a * y.d + -y.a * x.d := rfl

@[simp] theorem K.sub_b (x y : K) : (x - y).b = x.b * y.d + -y.b * x.d := rfl

@[simp] theorem K.sub_d (x y : K) : (x - y).d = x.d * y.d := rfl

@[simp] theorem K.ofZ_a (n : ℤ) : (K.ofZ n).a = n := rfl

@[simp] theorem K.ofZ_b (n : ℤ) : (K.ofZ n).b = 0 := rfl

@[simp] theorem K.ofZ_d (n : ℤ) : (K.ofZ n).d = 1 := rfl

theorem K.val_add (x y : K) (hx : x.d ≠ 0) (hy : y.d ≠ 0) :
    (x + y).val = q2add x.val y.val := by
  have hx' : (x.d : ℚ) ≠ 0 := Int.cast_ne_zero.mpr hx
  have hy' : (y.d : ℚ) ≠ 0 := Int.cast_ne_zero.mpr hy
  simp only [K.val, q2add, K.add_a, K.add_b, K.add_d, Prod.mk.injEq]
  constructor <;> push_cast <;> field_simp <;> ring

theorem K.val_mul (x y : K) (hx : x.d ≠ 0) (hy : y.d ≠ 0) :
    (x * y).val = q2mul x.val y.val := by
  have hx' : (x.d : ℚ) ≠ 0 := Int.cast_ne_zero.mpr hx
  have hy' : (y.d : ℚ) ≠ 0 := Int.cast_ne_zero.mpr hy
  simp only [K.val, q2mul, K.mul_a, K.mul_b, K.mul_d, Prod.mk.injEq]
  constructor <;> push_cast <;> field_simp <;> ring

theorem K.val_neg (x : K) : (-x).val = q2neg x.val := by
  simp only [K.val, q2neg, K.neg_a, K.neg_b, K.neg_d, Prod.mk.injEq]
  constructor <;> push_cast <;> ring_nf <;> simp [neg_div]

theorem K.val_sub (x y : K) (hx : x.d ≠ 0) (hy : y.d ≠ 0) :
    (x - y).val = q2sub x.val y.val := by
  have hx' : (x.d : ℚ) ≠ 0 := Int.cast_ne_zero.mpr hx
  have hy' : (y.d : ℚ) ≠ 0 := Int.cast_ne_zero.mpr hy
  simp only [K.val, q2sub, q2add, q2neg, K.sub_a, K.sub_b, K.sub_d, Prod.mk.injEq]
  constructor <;> push_cast <;> field_simp <;> ring

theorem K.val_ofZ (n : ℤ) : (K.ofZ n).val = ((n : ℚ), 0) := by
  simp [K.val, K.ofZ]

theorem K.ne_of_posDen {x : K} (h : x.posDen) : x.d ≠ 0 := ne_of_gt h

/-- The ℚ(√2)-coordinates of an integer vector. -/
def Vec3Z.valZ (u : Vec3Z) : (ℚ × ℚ) × (ℚ × ℚ) × (ℚ × ℚ) :=
  (((u.x : ℚ), 0), ((u.y : ℚ), 0), ((u.z : ℚ), 0))

set_option maxHeartbeats 3200000 in
theorem val_applyToVec (u : Vec3Z) (q : QuatK) (hq : q.posDenQ) :
    (QuatK.applyToVec u.toK q).val = applyToVecQ2 u.valZ q.val := by
  obtain ⟨hq1, hq2, hq3, hq4⟩ := hq
  have h4 : ((q.x.d : ℚ)) ≠ 0 := Int.cast_ne_zero.mpr (K.ne_of_posDen hq1)
  have h5 : ((q.y.d : ℚ)) ≠ 0 := Int.cast_ne_zero.mpr (K.ne_of_posDen hq2)
  have h6 : ((q.z.d : ℚ)) ≠ 0 := Int.cast_ne_zero.mpr (K.ne_of_posDen hq3)
  have h7 : ((q.w.d : ℚ)) ≠ 0 := Int.cast_ne_zero.mpr (K.ne_of_posDen hq4)
  simp only [QuatK.applyToVec, Vec3K.add, Vec3K.smul, Vec3K.cross, Vec3K.val,
    QuatK.val, Vec3Z.toK, Vec3Z.valZ, K.val, applyToVecQ2, q2add, q2mul, q2sub,
    q2neg, K.add_a, K.add_b, K.add_d, K.mul_a, K.mul_b, K.mul_d, K.sub_a,
    K.sub_b, K.sub_d, K.neg_a, K.neg_b, K.neg_d, K.ofZ_a, K.ofZ_b, K.ofZ_d,
    Prod.mk.injEq]
  refine ⟨⟨?_, ?_⟩, ⟨?_, ?_⟩, ?_, ?_⟩ <;>
    (push_cast; field_simp; try ring)

set_option maxHeartbeats 1600000 in
theorem val_qmul (q r : QuatK) (hq : q.posDenQ) (hr : r.posDenQ) :
    (QuatK.mul q r).val = qmulQ2 q.val r.val := by
  obtain ⟨hq1, hq2, hq3, hq4⟩ := hq
  obtain ⟨hr1, hr2, hr3, hr4⟩ := hr
  have h1 : ((q.x.d : ℚ)) ≠ 0 := Int.cast_ne_zero.mpr (K.ne_of_posDen hq1)
  have h2 : ((q.y.d : ℚ)) ≠ 0 := Int.cast_ne_zero.mpr (K.ne_of_posDen hq2)
  have h3 : ((q.z.d : ℚ)) ≠ 0 := Int.cast_ne_zero.mpr (K.ne_of_posDen hq3)
  have h4 : ((q.w.d : ℚ)) ≠ 0 := Int.cast_ne_zero.mpr (K.ne_of_posDen hq4)
  have h5 : ((r.x.d : ℚ)) ≠ 0 := Int.cast_ne_zero.mpr (K.ne_of_posDen hr1)
  have h6 : ((r.y.d : ℚ)) ≠ 0 := Int.cast_ne_zero.mpr (K.ne_of_posDen hr2)
  have h7 : ((r.z.d : ℚ)) ≠ 0 := Int.cast_ne_zero.mpr (K.ne_of_posDen hr3)
  have h8 : ((r.w.d : ℚ)) ≠ 0 := Int.cast_ne_zero.mpr (K.ne_of_posDen hr4)
  simp only [QuatK.mul, QuatK.val, K.val, qmulQ2, q2add, q2mul, q2sub, q2neg,
    K.add_a, K.add_b, K.add_d, K.mul_a, K.mul_b, K.mul_d, K.sub_a, K.sub_b,
    K.sub_d, K.neg_a, K.neg_b, K.neg_d, Prod.mk.injEq]
  refine ⟨⟨?_, ?_⟩, ⟨?_, ?_⟩, ⟨?_, ?_⟩, ?_, ?_⟩ <;>
    (push_cast; field_simp; try ring)

theorem posDen_mulK {x y : K} (hx : x.posDen) (hy : y.posDen) : (x * y).posDen :=
  mul_pos hx hy

theorem posDen_addK {x y : K} (hx : x.posDen) (hy : y.posDen) : (x + y).posDen :=
  mul_pos hx hy

theorem posDen_subK {x y : K} (hx : x.posDen) (hy : y.posDen) : (x - y).posDen :=
  mul_pos hx hy

theorem posDen_negK {x : K} (hx : x.posDen) : (-x).posDen := hx

theorem posDen_ofZ (n : ℤ) : (K.ofZ n).posDen := by
  simp [K.posDen, K.ofZ]

theorem posDenQ_mul {q r : QuatK} (hq : q.posDenQ) (hr : r.posDenQ) :
    (QuatK.mul q r).posDenQ := by
  obtain ⟨hq1, hq2, hq3, hq4⟩ := hq
  obtain ⟨hr1, hr2, hr3, hr4⟩ := hr
  refine ⟨?_, ?_, ?_, ?_⟩ <;>
    exact posDen_subK (posDen_addK (posDen_addK (posDen_mulK ‹_› ‹_›)
      (posDen_mulK ‹_› ‹_›)) (posDen_mulK ‹_› ‹_›)) (posDen_mulK ‹_› ‹_›)

theorem posDenQ_conj {q : QuatK} (hq : q.posDenQ) : (QuatK.conj q).posDenQ := by
  obtain ⟨h1, h2, h3, h4⟩ := hq
  exact ⟨h1, h2, h3, h4⟩

theorem posDenV_toK (u : Vec3Z) : u.toK.posDenV :=
  ⟨posDen_ofZ _, posDen_ofZ _, posDen_ofZ _⟩

theorem posDenV_applyToVec {v : Vec3K} {q : QuatK} (hv : v.posDenV) (hq : q.posDenQ) :
    (QuatK.applyToVec v q).posDenV := by
  obtain ⟨hv1, hv2, hv3⟩ := hv
  obtain ⟨hq1, hq2, hq3, hq4⟩ := hq
  have c : ∀ a b c d : K, a.posDen → b.posDen → c.posDen → d.posDen →
      (a * b - c * d).posDen := fun _ _ _ _ ha hb hc hd =>
    posDen_subK (posDen_mulK ha hb) (posDen_mulK hc hd)
  have h2 : (K.ofZ 2).posDen := posDen_ofZ 2
  refine ⟨?_, ?_, ?_⟩ <;>
    exact posDen_addK ‹_› (posDen_addK (posDen_mulK hq4 (posDen_mulK h2 (c _ _ _ _ ‹_› ‹_› ‹_› ‹_›)))
      (c _ _ _ _ ‹_› (posDen_mulK h2 (c _ _ _ _ ‹_› ‹_› ‹_› ‹_›)) ‹_› (posDen_mulK h2 (c _ _ _ _ ‹_› ‹_› ‹_› ‹_›))))

/-- Vector addition on ℚ(√2)-coordinate vectors. -/
def vq2add (u v : (ℚ × ℚ) × (ℚ × ℚ) × (ℚ × ℚ)) : (ℚ × ℚ) × (ℚ × ℚ) × (ℚ × ℚ) :=
  (q2add u.1 v.1, q2add u.2.1 v.2.1, q2add u.2.2 v.2.2)

/-- Rational scaling of a ℚ(√2)-coordinate vector. -/
def vq2smulQ (t : ℚ) (v : (ℚ × ℚ) × (ℚ × ℚ) × (ℚ × ℚ)) :
    (ℚ × ℚ) × (ℚ × ℚ) × (ℚ × ℚ) :=
  ((t * v.1.1, t * v.1.2), (t * v.2.1.1, t * v.2.1.2), (t * v.2.2.1, t * v.2.2.2))

/-- Quaternion negation on ℚ(√2)-coordinates. -/
def qnegQ2 (q : (ℚ × ℚ) × (ℚ × ℚ) × (ℚ × ℚ) × (ℚ × ℚ)) :
    (ℚ × ℚ) × (ℚ × ℚ) × (ℚ × ℚ) × (ℚ × ℚ) :=
  (q2neg q.1, q2neg q.2.1, q2neg q.2.2.1, q2neg q.2.2.2)

/-- The quaternion-action formula is linear in the vector: on an integer
vector it is the integer combination of the basis images. -/
theorem applyToVecQ2_linear (q : (ℚ × ℚ) × (ℚ × ℚ) × (ℚ × ℚ) × (ℚ × ℚ))
    (u : Vec3Z) :
    applyToVecQ2 u.valZ q =
      vq2add (vq2smulQ (u.x : ℚ) (applyToVecQ2 exZ.valZ q))
        (vq2add (vq2smulQ (u.y : ℚ) (applyToVecQ2 eyZ.valZ q))
          (vq2smulQ (u.z : ℚ) (applyToVecQ2 ezZ.valZ q))) := by
  simp only [applyToVecQ2, Vec3Z.valZ, exZ, eyZ, ezZ, vq2add, vq2smulQ, q2add,
    q2mul, q2sub, q2neg, Prod.mk.injEq, Int.cast_one, Int.cast_zero]
  refine ⟨⟨?_, ?_⟩, ⟨?_, ?_⟩, ?_, ?_⟩ <;> ring

/-- Negating a quaternion does not change its action. -/
theorem applyToVecQ2_negQ (v : (ℚ × ℚ) × (ℚ × ℚ) × (ℚ × ℚ))
    (q : (ℚ × ℚ) × (ℚ × ℚ) × (ℚ × ℚ) × (ℚ × ℚ)) :
    applyToVecQ2 v (qnegQ2 q) = applyToVecQ2 v q := by
  simp only [applyToVecQ2, qnegQ2, q2add, q2mul, q2sub, q2neg, Prod.mk.injEq]
  refine ⟨⟨?_, ?_⟩, ⟨?_, ?_⟩, ?_, ?_⟩ <;> ring

set_option maxHeartbeats 3200000 in
/-- Four successive left-multiplications by the same quarter-turn move
quaternion (given by its six possible ℚ(√2)-coordinate tuples) negate a
quaternion — the lift of a 360° rotation — at the coordinate level. -/
theorem qmulQ2_pow4_of (rv qq : (ℚ × ℚ) × (ℚ × ℚ) × (ℚ × ℚ) × (ℚ × ℚ))
    (h : rv = ((0, 1/2), (0, 0), (0, 0), (0, 1/2)) ∨
         rv = ((0, -1/2), (0, 0), (0, 0), (0, 1/2)) ∨
         rv = ((0, 0), (0, 1/2), (0, 0), (0, 1/2)) ∨
         rv = ((0, 0), (0, -1/2), (0, 0), (0, 1/2)) ∨
         rv = ((0, 0), (0, 0), (0, 1/2), (0, 1/2)) ∨
         rv = ((0, 0), (0, 0), (0, -1/2), (0, 1/2))) :
    qmulQ2 rv (qmulQ2 rv (qmulQ2 rv (qmulQ2 rv qq))) = qnegQ2 qq := by
  obtain ⟨⟨qa1, qa2⟩, ⟨qb1, qb2⟩, ⟨qc1, qc2⟩, qd1, qd2⟩ := qq
  rcases h with rfl | rfl | rfl | rfl | rfl | rfl <;>
    · simp only [qmulQ2, qnegQ2, q2add, q2mul, q2sub, q2neg, Prod.mk.injEq]
      norm_num
      refine ⟨⟨?_, ?_⟩, ⟨?_, ?_⟩, ⟨?_, ?_⟩, ?_, ?_⟩ <;> ring

/-- The ℚ(√2)-coordinates of the six quarter-turn move quaternions. -/
theorem rotQuat_val (ax : Axis) (dv : ℤ) (hdv : dv = 1 ∨ dv = -1) :
    (rotQuatOf ax dv).val = ((0, 1/2), (0, 0), (0, 0), (0, 1/2)) ∨
    (rotQuatOf ax dv).val = ((0, -1/2), (0, 0), (0, 0), (0, 1/2)) ∨
    (rotQuatOf ax dv).val = ((0, 0), (0, 1/2), (0, 0), (0, 1/2)) ∨
    (rotQuatOf ax dv).val = ((0, 0), (0, -1/2), (0, 0), (0, 1/2)) ∨
    (rotQuatOf ax dv).val = ((0, 0), (0, 0), (0, 1/2), (0, 1/2)) ∨
    (rotQuatOf ax dv).val = ((0, 0), (0, 0), (0, -1/2), (0, 1/2)) := by
  rcases hdv with rfl | rfl <;> cases ax
  · exact Or.inl (by norm_num [rotQuatOf, sinHalf, cosHalf, Axis.unitVec,
      Vec3Z.toK, K.hs, QuatK.val, K.val, K.ofZ, K.mul_a, K.mul_b, K.mul_d, Prod.ext_iff])
  · exact Or.inr (Or.inr (Or.inl (by norm_num [rotQuatOf, sinHalf, cosHalf,
      Axis.unitVec, Vec3Z.toK, K.hs, QuatK.val, K.val, K.ofZ, K.mul_a, K.mul_b, K.mul_d, Prod.ext_iff])))
  · exact Or.inr (Or.inr (Or.inr (Or.inr (Or.inl (by norm_num [rotQuatOf,
      sinHalf, cosHalf, Axis.unitVec, Vec3Z.toK, K.hs, QuatK.val, K.val,
      K.ofZ, K.mul_a, K.mul_b, K.mul_d, Prod.ext_iff])))))
  · exact Or.inr (Or.inl (by norm_num [rotQuatOf, sinHalf, cosHalf,
      Axis.unitVec, Vec3Z.toK, K.hs, QuatK.val, K.val, K.ofZ, K.mul_a, K.mul_b, K.mul_d, Prod.ext_iff]))
  · exact Or.inr (Or.inr (Or.inr (Or.inl (by norm_num [rotQuatOf, sinHalf,
      cosHalf, Axis.unitVec, Vec3Z.toK, K.hs, QuatK.val, K.val, K.ofZ, K.mul_a, K.mul_b, K.mul_d, Prod.ext_iff]))))
  · exact Or.inr (Or.inr (Or.inr (Or.inr (Or.inr (by norm_num [rotQuatOf,
      sinHalf, cosHalf, Axis.unitVec, Vec3Z.toK, K.hs, QuatK.val, K.val,
      K.ofZ, K.mul_a, K.mul_b, K.mul_d, Prod.ext_iff])))))

theorem K.eqv_true_iff_val {x y : K} (hx : x.posDen) (hy : y.posDen) :
    K.eqv x y = true ↔ x.val = y.val := by
  have hx' : ((x.d : ℚ)) ≠ 0 := Int.cast_ne_zero.mpr (K.ne_of_posDen hx)
  have hy' : ((y.d : ℚ)) ≠ 0 := Int.cast_ne_zero.mpr (K.ne_of_posDen hy)
  simp only [K.eqv, K.val, decide_eq_true_eq, Prod.mk.injEq]
  constructor
  · rintro ⟨h1, h2⟩
    constructor
    · rw [div_eq_div_iff hx' hy']
      exact_mod_cast h1
    · rw [div_eq_div_iff hx' hy']
      exact_mod_cast h2
  · rintro ⟨h1, h2⟩
    rw [div_eq_div_iff hx' hy'] at h1 h2
    exact ⟨by exact_mod_cast h1, by exact_mod_cast h2⟩

theorem Vec3K.eqvV_true_iff_val {u v : Vec3K} (hu : u.posDenV) (hv : v.posDenV) :
    Vec3K.eqv u v = true ↔ u.val = v.val := by
  obtain ⟨h1, h2, h3⟩ := hu
  obtain ⟨h4, h5, h6⟩ := hv
  simp only [Vec3K.eqv, Vec3K.val, Bool.and_eq_true, Prod.mk.injEq,
    K.eqv_true_iff_val h1 h4, K.eqv_true_iff_val h2 h5, K.eqv_true_iff_val h3 h6, and_assoc]

theorem QuatK.eqvQ_true_iff_val {q r : QuatK} (hq : q.posDenQ) (hr : r.posDenQ) :
    QuatK.eqv q r = true ↔ q.val = r.val := by
  obtain ⟨h1, h2, h3, h4⟩ := hq
  obtain ⟨h5, h6, h7, h8⟩ := hr
  simp only [QuatK.eqv, QuatK.val, Bool.and_eq_true, Prod.mk.injEq,
    K.eqv_true_iff_val h1 h5, K.eqv_true_iff_val h2 h6, K.eqv_true_iff_val h3 h7, K.eqv_true_iff_val h4 h8,
    and_assoc]

theorem K.isInt_of_val {x : K} (hx : x.posDen) (n : ℤ)
    (hv : x.val = ((n : ℚ), 0)) : x.isIntB = true ∧ x.toInt = n := by
  have hd : x.d ≠ 0 := K.ne_of_posDen hx
  have hd' : ((x.d : ℚ)) ≠ 0 := Int.cast_ne_zero.mpr hd
  simp only [K.val, Prod.mk.injEq] at hv
  obtain ⟨h1, h2⟩ := hv
  have hb : x.b = 0 := by
    have := (div_eq_zero_iff.mp h2).resolve_right hd'
    exact_mod_cast this
  have ha : x.a = n * x.d := by
    have : (x.a : ℚ) = n * x.d := by
      field_simp at h1
      linarith [h1]
    exact_mod_cast this
  constructor
  · simp [K.isIntB, hb, ha, Int.mul_emod_left]
  · simp [K.toInt, ha, Int.mul_ediv_cancel _ hd]

theorem K.val_of_isInt {x : K} (hx : x.posDen) (hi : x.isIntB = true) :
    x.val = ((x.toInt : ℚ), 0) := by
  have hd : x.d ≠ 0 := K.ne_of_posDen hx
  have hd' : ((x.d : ℚ)) ≠ 0 := Int.cast_ne_zero.mpr hd
  simp only [K.isIntB, decide_eq_true_eq] at hi
  obtain ⟨hb, ha⟩ := hi
  have hdvd : x.d ∣ x.a := Int.dvd_of_emod_eq_zero ha
  obtain ⟨k, hk⟩ := hdvd
  simp only [K.val, K.toInt, hb, hk, Int.cast_zero, zero_div, Prod.mk.injEq,
    Int.mul_ediv_cancel_left _ hd]
  constructor
  · push_cast
    field_simp
  · trivial

/-- `K.lt` into a rational threshold is false once the value is a rational
at least 1. -/
theorem K.lt_mkQ_false {x : K} (hx : x.posDen) (hb : x.val.2 = 0)
    (h1 : (1 : ℚ) ≤ x.val.1) (n m : ℤ) (hm : 0 < m) (hnm : n ≤ m) :
    K.lt x (K.mkQ n m) = false := by
  have hd : x.d ≠ 0 := K.ne_of_posDen hx
  have hd' : ((x.d : ℚ)) ≠ 0 := Int.cast_ne_zero.mpr hd
  simp only [K.val] at hb h1
  have hxb : x.b = 0 := by
    have := (div_eq_zero_iff.mp hb).resolve_right hd'
    exact_mod_cast this
  have hda : x.d ≤ x.a := by
    have : (x.d : ℚ) ≤ x.a := by
      rw [le_div_iff (by exact_mod_cast hx)] at h1
      linarith [h1]
    exact_mod_cast this
  simp only [K.lt, K.mkQ, hxb]
  have he : n * x.d - x.a * m ≤ 0 := by
    have h2 : n * x.d ≤ m * x.d := by
      apply mul_le_mul_of_nonneg_right hnm (le_of_lt hx)
    have h3 : m * x.d ≤ m * x.a := by
      apply mul_le_mul_of_nonneg_left hda (le_of_lt hm)
    nlinarith
  rcases lt_or_eq_of_le he with hlt | heq
  · rw [if_neg (by omega)]
    simp
    exact mul_self_nonneg _
  · rw [if_pos (by omega)]
    rw [if_pos (by omega)]
    simp
    omega

set_option maxRecDepth 40000 in
set_option maxHeartbeats 1600000 in
/-- On lattice points, the committed position update (rotate by the move
quaternion, then round) is exactly the integer `rotateVector`. -/
theorem commit_eq_rotateVector : ∀ p ∈ latticeList, ∀ ax ∈ axes3, ∀ dv ∈ dirs4,
    roundVec (QuatK.applyToVec p.toK (rotQuatOf ax dv)) = rotateVector p ax dv := by
  decide

set_option maxRecDepth 40000 in
set_option maxHeartbeats 1600000 in
/-- Every slice selection rearranges the lattice onto itself. -/
theorem posStepZ_perm : ∀ ax ∈ axes3, ∀ dv ∈ dirs4, ∀ sl ∈ sliceSubsets,
    (latticeList.map (posStepZ ax dv sl)).Perm latticeList := by
  decide

set_option maxRecDepth 100000 in
set_option maxHeartbeats 6400000 in
/-- The binary octahedral group is closed under left multiplication by the
twelve move quaternions. -/
theorem binOct_closure : ∀ ax ∈ axes3, ∀ dv ∈ dirs4, ∀ q ∈ binOct48,
    QuatK.memB (QuatK.mul (rotQuatOf ax dv) q) binOct48 = true := by
  decide

set_option maxRecDepth 100000 in
set_option maxHeartbeats 6400000 in
/-- Facts about the 48 group elements: positive denominators, closure under
conjugation, action by an integer cube rotation, and integrality of the
three basis images. -/
theorem binOct_props : ∀ q ∈ binOct48, q.posDenQ ∧ QuatK.conj q ∈ binOct48 ∧
    actsAsCubeRot q = true ∧
    (QuatK.applyToVec exZ.toK q).isIntVecB = true ∧
    (QuatK.applyToVec eyZ.toK q).isIntVecB = true ∧
    (QuatK.applyToVec ezZ.toK q).isIntVecB = true := by
  decide

/-- The move quaternions have positive denominators. -/
theorem rotQuat_posDen : ∀ ax ∈ axes3, ∀ dv ∈ dirs4, (rotQuatOf ax dv).posDenQ := by
  decide

/-- Lattice coordinates lie in `{-1, 0, 1}`. -/
theorem lattice_comp : ∀ p ∈ latticeList, ∀ ax ∈ axes3,
    p.comp ax = -1 ∨ p.comp ax = 0 ∨ p.comp ax = 1 := by
  decide

set_option maxRecDepth 40000 in
/-- `rotateVector` maps the lattice to itself. -/
theorem rotateVector_lattice : ∀ p ∈ latticeList, ∀ ax ∈ axes3, ∀ dv ∈ dirs4,
    rotateVector p ax dv ∈ latticeList := by
  decide

set_option maxRecDepth 40000 in
/-- A quarter `rotateVector` has order four on the lattice. -/
theorem rotateVector_pow4 : ∀ p ∈ latticeList, ∀ ax ∈ axes3,
    ∀ dv ∈ ([1, -1] : List ℤ),
    rotateVector (rotateVector (rotateVector (rotateVector p ax dv) ax dv) ax dv) ax dv
      = p := by
  decide

/-- `rotateVector` preserves the coordinate along its own axis. -/
theorem rotateVector_comp (p : Vec3Z) (ax : Axis) (dv : ℤ) :
    (rotateVector p ax dv).comp ax = p.comp ax := by
  cases ax <;> unfold rotateVector <;> split <;> simp [Vec3Z.comp, roundPos]

/-- Every axis is in the axis list. -/
theorem axis_mem (ax : Axis) : ax ∈ axes3 := by
  cases ax <;> simp [axes3]

set_option maxRecDepth 40000 in
/-- The initial snapshot satisfies the state invariant. -/
theorem stateInv_init : StateInv getInitialState := by
  constructor
  · decide
  · decide

theorem canonSlice_mem_subsets (l : List ℤ) : canonSlice l ∈ sliceSubsets := by
  unfold canonSlice sliceSubsets
  cases h1 : decide ((-1 : ℤ) ∈ l) <;> cases h2 : decide ((0 : ℤ) ∈ l) <;>
    cases h3 : decide ((1 : ℤ) ∈ l) <;>
    simp [List.filter, List.elem_eq_mem, h1, h2, h3]

theorem contains_canonSlice (l : List ℤ) (x : ℤ)
    (hx : x = -1 ∨ x = 0 ∨ x = 1) :
    l.contains x = (canonSlice l).contains x := by
  rcases hx with rfl | rfl | rfl <;>
    · unfold canonSlice
      cases h1 : decide ((-1 : ℤ) ∈ l) <;> cases h2 : decide ((0 : ℤ) ∈ l) <;>
        cases h3 : decide ((1 : ℤ) ∈ l) <;>
        simp [List.filter, List.elem_eq_mem, h1, h2, h3, List.contains_cons]

theorem memB_iff (q : QuatK) (l : List QuatK) :
    QuatK.memB q l = true ↔ ∃ b ∈ l, QuatK.eqv q b = true := by
  simp [QuatK.memB, List.any_eq_true]

/-- Value-membership in the group transfers along value equality of
quaternions with positive denominators. -/
theorem memB_of_val_eq {q r : QuatK} (hq : q.posDenQ) (hr : r.posDenQ)
    (hval : q.val = r.val) (hmem : QuatK.memB r binOct48 = true) :
    QuatK.memB q binOct48 = true := by
  rw [memB_iff] at hmem ⊢
  obtain ⟨b, hb, heq⟩ := hmem
  have hbp : b.posDenQ := (binOct_props b hb).1
  refine ⟨b, hb, ?_⟩
  rw [QuatK.eqvQ_true_iff_val hq hbp]
  rw [QuatK.eqvQ_true_iff_val hr hbp] at heq
  rw [hval, heq]

theorem movePos_eq (m : MoveT) (c : Cubie) :
    (moveCubie m c).position = posStep m.axis m.direction m.slice c.position := by
  unfold moveCubie posStep
  split <;> rfl

theorem moveQuat_eq (m : MoveT) (c : Cubie) :
    (moveCubie m c).quaternion =
      (if m.slice.contains (c.position.comp m.axis) then
        QuatK.mul (rotQuatOf m.axis m.direction) c.quaternion
      else c.quaternion) := by
  unfold moveCubie QuatK.normalize
  split <;> rfl

theorem dir_mem_dirs4 {d : ℤ} (h : d = 1 ∨ d = -1 ∨ d = 2 ∨ d = -2) :
    d ∈ dirs4 := by
  rcases h with rfl | rfl | rfl | rfl <;> simp [dirs4]

/-- One legal move preserves the state invariant. -/
theorem stateInv_step (s : List Cubie) (m : MoveT) (hs : StateInv s)
    (hm : ValidMove m) : StateInv (applyMove s m) := by
  obtain ⟨hperm, hquat⟩ := hs
  obtain ⟨hslice, hdir⟩ := hm
  have hd4 : m.direction ∈ dirs4 := dir_mem_dirs4 hdir
  have hax : m.axis ∈ axes3 := axis_mem m.axis
  constructor
  · -- positions stay a permutation of the lattice
    have hmap : (applyMove s m).map (fun c => c.position) =
        (s.map (fun c => c.position)).map (posStep m.axis m.direction m.slice) := by
      simp only [applyMove, List.map_map]
      apply List.map_congr_left
      intro c _
      exact movePos_eq m c
    rw [hmap]
    have h1 : ((s.map (fun c => c.position)).map
        (posStep m.axis m.direction m.slice)).Perm
        (latticeList.map (posStep m.axis m.direction m.slice)) :=
      hperm.map _
    have h2 : latticeList.map (posStep m.axis m.direction m.slice) =
        latticeList.map (posStepZ m.axis m.direction (canonSlice m.slice)) := by
      apply List.map_congr_left
      intro p hp
      unfold posStep posStepZ
      rw [← contains_canonSlice m.slice _ (lattice_comp p hp m.axis hax)]
      split
      · exact commit_eq_rotateVector p hp m.axis hax m.direction hd4
      · rfl
    rw [h2] at h1
    exact h1.trans (posStepZ_perm m.axis hax m.direction hd4 (canonSlice m.slice)
      (canonSlice_mem_subsets m.slice))
  · -- quaternions stay in the group with positive denominators
    intro c' hc'
    simp only [applyMove, List.mem_map] at hc'
    obtain ⟨c, hc, rfl⟩ := hc'
    obtain ⟨hmem, hpos⟩ := hquat c hc
    rw [moveQuat_eq]
    split
    · -- affected piece: left-multiplied by the move quaternion
      have hrpos : (rotQuatOf m.axis m.direction).posDenQ :=
        rotQuat_posDen m.axis hax m.direction hd4
      obtain ⟨b, hb, heq⟩ := (memB_iff _ _).mp hmem
      have hbp : b.posDenQ := (binOct_props b hb).1
      have hvq : c.quaternion.val = b.val := (QuatK.eqvQ_true_iff_val hpos hbp).mp heq
      have hvmul : (QuatK.mul (rotQuatOf m.axis m.direction) c.quaternion).val =
          (QuatK.mul (rotQuatOf m.axis m.direction) b).val := by
        rw [val_qmul _ _ hrpos hpos, val_qmul _ _ hrpos hbp, hvq]
      refine ⟨memB_of_val_eq (posDenQ_mul hrpos hpos) (posDenQ_mul hrpos hbp)
        hvmul (binOct_closure m.axis hax m.direction hd4 b hb), ?_⟩
      exact posDenQ_mul hrpos hpos
    · exact ⟨hmem, hpos⟩

/-- Reachable snapshots satisfy the invariant. -/
theorem reachable_inv {s : List Cubie} (h : Reachable s) : StateInv s := by
  induction h with
  | init => exact stateInv_init
  | step hr hm ih => exact stateInv_step _ _ ih hm

/-- Quaternion conjugation on ℚ(√2)-coordinates. -/
def qconjQ2 (q : (ℚ × ℚ) × (ℚ × ℚ) × (ℚ × ℚ) × (ℚ × ℚ)) :
    (ℚ × ℚ) × (ℚ × ℚ) × (ℚ × ℚ) × (ℚ × ℚ) :=
  (q2neg q.1, q2neg q.2.1, q2neg q.2.2.1, q.2.2.2)

theorem val_conj (q : QuatK) : (QuatK.conj q).val = qconjQ2 q.val := by
  simp only [QuatK.conj, QuatK.val, qconjQ2, K.val_neg]

/-- A reachable-value quaternion acts as an integer cube rotation. -/
theorem acts_of_memB {q : QuatK} (hpos : q.posDenQ)
    (hq : QuatK.memB q binOct48 = true) : actsAsCubeRot q = true := by
  obtain ⟨b, hb, heq⟩ := (memB_iff _ _).mp hq
  have hbp := (binOct_props b hb).1
  have hacts := (binOct_props b hb).2.2.1
  have hval : q.val = b.val := (QuatK.eqvQ_true_iff_val hpos hbp).mp heq
  have key : ∀ (u : Vec3Z) (w : Vec3Z),
      Vec3K.eqv (QuatK.applyToVec u.toK b) w.toK = true →
      Vec3K.eqv (QuatK.applyToVec u.toK q) w.toK = true := by
    intro u w h
    have hpb : (QuatK.applyToVec u.toK b).posDenV :=
      posDenV_applyToVec (posDenV_toK u) hbp
    have hpq : (QuatK.applyToVec u.toK q).posDenV :=
      posDenV_applyToVec (posDenV_toK u) hpos
    rw [Vec3K.eqvV_true_iff_val hpb (posDenV_toK w)] at h
    rw [Vec3K.eqvV_true_iff_val hpq (posDenV_toK w)]
    rw [val_applyToVec u b hbp] at h
    rw [val_applyToVec u q hpos, hval]
    exact h
  unfold actsAsCubeRot at hacts ⊢
  rw [List.any_eq_true] at hacts ⊢
  obtain ⟨t, ht, htt⟩ := hacts
  refine ⟨t, ht, ?_⟩
  simp only [Bool.and_eq_true] at htt ⊢
  obtain ⟨⟨h1, h2⟩, h3⟩ := htt
  exact ⟨⟨key _ _ h1, key _ _ h2⟩, key _ _ h3⟩

/-- A candidate whose cross fails contributes nothing to the fold. -/
theorem foldl_stepBest_none (cubies : List Cubie) (l : List Cubie)
    (best : BestState) (h : ∀ c ∈ l, evalCandidate cubies c = none) :
    List.foldl (stepBest cubies) best l = best := by
  induction l generalizing best with
  | nil => rfl
  | cons c l ih =>
    simp only [List.foldl_cons]
    rw [show stepBest cubies best c = best by
      unfold stepBest
      rw [h c (List.mem_cons_self c l)]]
    exact ih best fun c' hc' => h c' (List.mem_cons_of_mem c hc')

/-- Candidate phases are at most `Solved` in rank. -/
theorem phaseValue_le (p : Phase) : phaseValue p ≤ 5 := by
  cases p <;> simp [phaseValue]

/-- Only `Solved` has rank 5. -/
theorem phaseValue_lt_of_ne {p : Phase} (h : p ≠ Phase.Solved) : phaseValue p < 5 := by
  cases p <;> simp [phaseValue] at h ⊢

/-- A fold whose accumulator already reached `Solved` never changes. -/
theorem foldl_stepBest_solved (cubies : List Cubie) (l : List Cubie)
    (best : BestState) (h : best.phase = Phase.Solved) :
    List.foldl (stepBest cubies) best l = best := by
  induction l generalizing best with
  | nil => rfl
  | cons c l ih =>
    simp only [List.foldl_cons]
    rw [show stepBest cubies best c = best by
      unfold stepBest
      cases heval : evalCandidate cubies c with
      | none => rfl
      | some r =>
        simp only
        rw [if_neg, if_neg]
        · rintro ⟨h5, hf⟩
          rw [hf, h] at h5
          simp [phaseValue] at h5
        · rw [h]
          simp only [phaseValue]
          intro hlt
          exact absurd hlt (not_lt.mpr (phaseValue_le r.phase))]
    exact ih best h

/-- A candidate that evaluates to `Solved` has its PLL sub-case cleared. -/
theorem evalCandidate_solved_pll (cubies : List Cubie) (center : Cubie)
    (r : CandResult) (h : evalCandidate cubies center = some r)
    (hp : r.phase = Phase.Solved) : r.pllCase = none := by
  unfold evalCandidate at h
  dsimp only at h
  split at h
  · split at h
    · split at h
      · split at h
        · split at h
          · simp only [Option.some.injEq] at h
            rw [← h]
          · simp only [Option.some.injEq] at h
            rw [← h] at hp
            simp at hp
        · simp only [Option.some.injEq] at h
          rw [← h] at hp
          simp at hp
      · simp only [Option.some.injEq] at h
        rw [← h] at hp
        simp at hp
    · split at h <;> [skip; split at h] <;>
        (simp only [Option.some.injEq] at h; rw [← h] at hp; simp at hp)
  · exact absurd h (by simp)

/-- The selection step preserves "a Solved best has no PLL sub-case". -/
theorem stepBest_pll_inv (cubies : List Cubie) (best : BestState) (c : Cubie)
    (hP : best.phase = Phase.Solved → best.pllCase = none) :
    (stepBest cubies best c).phase = Phase.Solved →
      (stepBest cubies best c).pllCase = none := by
  unfold stepBest
  cases heval : evalCandidate cubies c with
  | none => exact hP
  | some r =>
    dsimp only
    split
    · intro h
      exact evalCandidate_solved_pll cubies c r heval h
    · split
      · split
        · exact fun h => hP h
        · exact hP
      · exact hP

/-- Stepping onto a Solved candidate from a non-Solved best yields a Solved
best with the PLL sub-case cleared. -/
theorem stepBest_solved_cand (cubies : List Cubie) (best : BestState) (c : Cubie)
    (r : CandResult) (heval : evalCandidate cubies c = some r)
    (hr : r.phase = Phase.Solved) (hb : best.phase ≠ Phase.Solved) :
    (stepBest cubies best c).phase = Phase.Solved ∧
      (stepBest cubies best c).pllCase = none := by
  unfold stepBest
  rw [heval]
  dsimp only
  rw [if_pos (by rw [hr]; exact phaseValue_lt_of_ne hb)]
  exact ⟨hr, evalCandidate_solved_pll cubies c r heval hr⟩

/-- If some candidate in the list evaluates to `Solved` (or the accumulator
is already Solved with a clean PLL field), the fold ends Solved with the
PLL sub-case cleared. -/
theorem foldl_stepBest_solved_of_exists (cubies : List Cubie) (l : List Cubie) :
    ∀ best : BestState, (best.phase = Phase.Solved → best.pllCase = none) →
    ((∃ c ∈ l, ∃ r, evalCandidate cubies c = some r ∧ r.phase = Phase.Solved) ∨
      best.phase = Phase.Solved) →
    (List.foldl (stepBest cubies) best l).phase = Phase.Solved ∧
      (List.foldl (stepBest cubies) best l).pllCase = none := by
  induction l with
  | nil =>
    intro best hP h
    rcases h with ⟨c, hc, _⟩ | h
    · exact absurd hc (List.not_mem_nil c)
    · exact ⟨h, hP h⟩
  | cons c l ih =>
    intro best hP h
    simp only [List.foldl_cons]
    by_cases hbs : best.phase = Phase.Solved
    · apply ih
      · exact stepBest_pll_inv cubies best c hP
      · right
        unfold stepBest
        cases heval : evalCandidate cubies c with
        | none => exact hbs
        | some r =>
          dsimp only
          rw [if_neg (by rw [hbs]; exact not_lt.mpr (le_trans (phaseValue_le r.phase)
            (by simp [phaseValue]))), if_neg]
          · exact hbs
          · rintro ⟨h5, hf⟩
            rw [hf, hbs] at h5
            simp [phaseValue] at h5
    · rcases h with ⟨c', hc', r, heval, hr⟩ | h
      · rcases List.mem_cons.mp hc' with rfl | hc'l
        · have hstep := stepBest_solved_cand cubies best c' r heval hr hbs
          apply ih
          · exact fun _ => hstep.2
          · right
            exact hstep.1
        · apply ih
          · exact stepBest_pll_inv cubies best c hP
          · left
            exact ⟨c', hc'l, r, heval, hr⟩
      · exact absurd h hbs

set_option maxRecDepth 40000 in
set_option maxHeartbeats 3200000 in
/-- C1: the initial snapshot produced by `getInitialState` (27 pieces,
origin = position, identity orientation) is analyzed end to end — cross,
F2L, OLL orientation and the PLL "Solved" sentinel — and `analyzeCube`
returns phase `Solved` with `isSolved = true`. -/
theorem c1_initial_state_analyzed_solved :
    (analyzeCube getInitialState).phase = Phase.Solved ∧
      (analyzeCube getInitialState).isSolved = true := by
  decide

/-- C3: on every one of the 26 valid (nonzero) lattice positions,
`rotateVector` agrees with the spec's reference rotation: quarter turns
(`direction = ±1`) apply the right-hand-rule 90° rotation about the axis,
and half turns (`direction = ±2`, either sign) negate the two coordinates
orthogonal to the axis and keep the axis coordinate. -/
theorem c3_rotateVector_matches_spec :
    ∀ v ∈ latticeList, v ≠ (⟨0, 0, 0⟩ : Vec3Z) → ∀ (ax : Axis) (d : ℤ),
      ((d = 1 ∨ d = -1) → rotateVector v ax d = specRotateQuarter v ax d) ∧
      ((d = 2 ∨ d = -2) → rotateVector v ax d = specRotateHalf v ax) := by
  have hq : ∀ ax ∈ axes3, ∀ d ∈ ([1, -1] : List ℤ), ∀ v ∈ latticeList,
      rotateVector v ax d = specRotateQuarter v ax d := by decide
  have hh : ∀ ax ∈ axes3, ∀ d ∈ ([2, -2] : List ℤ), ∀ v ∈ latticeList,
      rotateVector v ax d = specRotateHalf v ax := by decide
  intro v hv _ ax d
  constructor
  · rintro (rfl | rfl)
    · exact hq ax (axis_mem ax) 1 (by simp) v hv
    · exact hq ax (axis_mem ax) (-1) (by simp) v hv
  · rintro (rfl | rfl)
    · exact hh ax (axis_mem ax) 2 (by simp) v hv
    · exact hh ax (axis_mem ax) (-2) (by simp) v hv

/-- C3 witness: the quarter-turn agreement at the concrete edge `(1,1,0)`
about `x`. -/
theorem c3_witness :
    (⟨1, 1, 0⟩ : Vec3Z) ∈ latticeList ∧ (⟨1, 1, 0⟩ : Vec3Z) ≠ ⟨0, 0, 0⟩ ∧
      rotateVector ⟨1, 1, 0⟩ Axis.x 1 = specRotateQuarter ⟨1, 1, 0⟩ Axis.x 1 :=
  ⟨by decide, by decide,
    (c3_rotateVector_matches_spec ⟨1, 1, 0⟩ (by decide) (by decide) Axis.x 1).1
      (Or.inl rfl)⟩

/-- C10: the move commit is a frame-preserving update — pieces whose
coordinate along the move axis is not in the slice set are returned
entirely unchanged; every piece keeps its `id`, `initialPosition`
(originCoordinate) and Euler `rotation` (only `position` and `quaternion`
can change); and a move with an empty slice set is a no-op on the whole
snapshot. -/
theorem c10_frame_preserving_update :
    (∀ (m : MoveT) (c : Cubie), c.position.comp m.axis ∉ m.slice →
      moveCubie m c = c) ∧
    (∀ (m : MoveT) (c : Cubie), (moveCubie m c).id = c.id ∧
      (moveCubie m c).initialPosition = c.initialPosition ∧
      (moveCubie m c).rotation = c.rotation) ∧
    (∀ (s : List Cubie) (m : MoveT), m.slice = [] → applyMove s m = s) := by
  refine ⟨?_, ?_, ?_⟩
  · intro m c h
    unfold moveCubie
    rw [if_neg]
    simp only [List.elem_eq_mem, decide_eq_true_eq]
    exact h
  · intro m c
    unfold moveCubie
    split <;> exact ⟨rfl, rfl, rfl⟩
  · intro s m h
    unfold applyMove
    have : ∀ c ∈ s, moveCubie m c = c := by
      intro c _
      unfold moveCubie
      rw [h]
      simp
    calc s.map (moveCubie m) = s.map id := List.map_congr_left fun c hc => this c hc
      _ = s := List.map_id s

/-- C10 witness: the corner at `(-1,-1,-1)` is untouched by the `x = 1`
quarter turn, and the empty-slice move is a no-op on the initial snapshot. -/
theorem c10_witness :
    ((⟨0, ⟨-1, -1, -1⟩, ⟨-1, -1, -1⟩, ⟨0, 0, 0⟩, QuatK.one⟩ : Cubie).position.comp
        moveX1.axis ∉ moveX1.slice) ∧
      moveCubie moveX1 ⟨0, ⟨-1, -1, -1⟩, ⟨-1, -1, -1⟩, ⟨0, 0, 0⟩, QuatK.one⟩ =
        ⟨0, ⟨-1, -1, -1⟩, ⟨-1, -1, -1⟩, ⟨0, 0, 0⟩, QuatK.one⟩ ∧
      applyMove getInitialState ⟨Axis.x, [], 1⟩ = getInitialState :=
  ⟨by decide,
   c10_frame_preserving_update.1 moveX1 _ (by decide),
   c10_frame_preserving_update.2.2 getInitialState ⟨Axis.x, [], 1⟩ rfl⟩

/-- C6: when no base-face candidate has all of its cross edges correctly
placed, `analyzeCube` returns phase `Cross` with a null base color and
`isSolved = false`; and on every snapshot whatsoever the engine never
returns phase `Scrambled`. -/
theorem c6_cross_fallback_never_scrambled (cubies : List Cubie) :
    ((∀ center ∈ cubies.filter isCenter,
        isCrossSolved (cubies.filter isEdge) center = false) →
      analyzeCube cubies = { phase := Phase.Cross
                             baseColor := none
                             isSolved := false
                             f2lTag := none
                             missingCount := none
                             ollCase := none
                             pllCase := none }) ∧
    (analyzeCube cubies).phase ≠ Phase.Scrambled := by
  constructor
  · intro h
    unfold analyzeCube
    dsimp only
    rw [foldl_stepBest_none cubies _ _ (fun c hc => by
      unfold evalCandidate
      dsimp only
      rw [if_neg]
      rw [h c hc]
      simp)]
    rfl
  · unfold analyzeCube
    dsimp only
    split
    · simp
    · rename_i hne
      simpa using hne

set_option maxRecDepth 40000 in
set_option maxHeartbeats 3200000 in
/-- C6 witness: after the two quarter turns of `c6State`, every candidate's
cross fails and the engine reports the `Cross`/`null`/`false` fallback. -/
theorem c6_witness :
    (∀ center ∈ c6State.filter isCenter,
        isCrossSolved (c6State.filter isEdge) center = false) ∧
      analyzeCube c6State = { phase := Phase.Cross
                              baseColor := none
                              isSolved := false
                              f2lTag := none
                              missingCount := none
                              ollCase := none
                              pllCase := none } :=
  ⟨by decide, (c6_cross_fallback_never_scrambled c6State).1 (by decide)⟩

/-- C5: in each per-candidate F2L evaluation with the cross solved but
`solvedPairs < 4`, the candidate reports phase `F2L` with exactly the
branch table of the source: `solvedPairs ≥ 2` → no sub-tag and
`missingCount = 4 - solvedPairs`; else `solvedCorners = 4` →
"Second Layer" and `missingCount = 4 - solvedEdges`; otherwise
"First Layer" and `missingCount = 4 - solvedCorners`. -/
theorem c5_f2l_branch_table (cubies : List Cubie) (center : Cubie)
    (hcross : isCrossSolved (cubies.filter isEdge) center = true)
    (hlt : (f2lCounts (cubies.filter isEdge) (cubies.filter isCorner)
        center).pairs < 4) :
    evalCandidate cubies center = some
      { phase := Phase.F2L
        f2lTag :=
          if 2 ≤ (f2lCounts (cubies.filter isEdge) (cubies.filter isCorner)
              center).pairs then none
          else if (f2lCounts (cubies.filter isEdge) (cubies.filter isCorner)
              center).corners = 4 then some F2LTag.secondLayer
          else some F2LTag.firstLayer
        missingCount := some
          (if 2 ≤ (f2lCounts (cubies.filter isEdge) (cubies.filter isCorner)
              center).pairs then
            4 - (f2lCounts (cubies.filter isEdge) (cubies.filter isCorner)
              center).pairs
          else if (f2lCounts (cubies.filter isEdge) (cubies.filter isCorner)
              center).corners = 4 then
            4 - (f2lCounts (cubies.filter isEdge) (cubies.filter isCorner)
              center).edges
          else
            4 - (f2lCounts (cubies.filter isEdge) (cubies.filter isCorner)
              center).corners)
        ollCase := none
        pllCase := none } := by
  unfold evalCandidate
  dsimp only
  rw [if_pos hcross, if_neg (by omega)]
  split
  · rfl
  · split <;> rfl

set_option maxRecDepth 40000 in
set_option maxHeartbeats 3200000 in
/-- C5 witness: the three-edge middle-layer cycle of `c5State`, evaluated
from the bottom center: cross solved, one pair, four corners, one edge —
the "Second Layer" branch with `missingCount = 3`. -/
theorem c5_witness :
    isCrossSolved (c5State.filter isEdge) c5Center = true ∧
      (f2lCounts (c5State.filter isEdge) (c5State.filter isCorner)
        c5Center).pairs < 4 ∧
      evalCandidate c5State c5Center = some
        { phase := Phase.F2L
          f2lTag :=
            if 2 ≤ (f2lCounts (c5State.filter isEdge) (c5State.filter isCorner)
                c5Center).pairs then none
            else if (f2lCounts (c5State.filter isEdge) (c5State.filter isCorner)
                c5Center).corners = 4 then some F2LTag.secondLayer
            else some F2LTag.firstLayer
          missingCount := some
            (if 2 ≤ (f2lCounts (c5State.filter isEdge) (c5State.filter isCorner)
                c5Center).pairs then
              4 - (f2lCounts (c5State.filter isEdge) (c5State.filter isCorner)
                c5Center).pairs
            else if (f2lCounts (c5State.filter isEdge) (c5State.filter isCorner)
                c5Center).corners = 4 then
              4 - (f2lCounts (c5State.filter isEdge) (c5State.filter isCorner)
                c5Center).edges
            else
              4 - (f2lCounts (c5State.filter isEdge) (c5State.filter isCorner)
                c5Center).corners)
          ollCase := none
          pllCase := none } :=
  ⟨by decide, by decide, c5_f2l_branch_table c5State c5Center (by decide) (by decide)⟩

/-- C2: applying one legal move (any axis, slice set ⊆ {-1,0,1}, direction
in {-2,-1,1,2}) to any reachable snapshot preserves the state invariant:
the 27 positions remain exactly a permutation of the lattice `{-1,0,1}³`,
and every piece's orientation quaternion lies (by value) in the binary
octahedral group, hence acts as one of the 24 cube rotations. -/
theorem c2_move_preserves_invariant (s : List Cubie) (m : MoveT)
    (hs : Reachable s) (hm : ValidMove m) :
    ((applyMove s m).map (fun c => c.position)).Perm latticeList ∧
      (∀ c ∈ applyMove s m, QuatK.memB c.quaternion binOct48 = true ∧
        actsAsCubeRot c.quaternion = true) ∧
      cubeRot24.length = 24 := by
  have hinv := stateInv_step s m (reachable_inv hs) hm
  refine ⟨hinv.1, fun c hc => ?_, by decide⟩
  obtain ⟨hmem, hpos⟩ := hinv.2 c hc
  exact ⟨hmem, acts_of_memB hpos hmem⟩

/-- C2 witness: the invariant after one `x = 1` quarter turn from the
initial state, sampled at the first piece. -/
theorem c2_witness :
    ValidMove moveX1 ∧
      ((applyMove getInitialState moveX1).map (fun c => c.position)).Perm
        latticeList ∧
      cubeRot24.length = 24 :=
  ⟨⟨by decide, by decide⟩,
   (c2_move_preserves_invariant getInitialState moveX1 Reachable.init
     ⟨by decide, by decide⟩).1,
   (c2_move_preserves_invariant getInitialState moveX1 Reachable.init
     ⟨by decide, by decide⟩).2.2⟩

/-- The eight solved top-layer pieces of the `y = 1` face (four edges, four
corners), identity orientations. -/
def c7TopPieces : List Cubie :=
  [{ id := 0, initialPosition := ⟨1, 1, 0⟩, position := ⟨1, 1, 0⟩,
     rotation := ⟨0, 0, 0⟩, quaternion := QuatK.one },
   { id := 1, initialPosition := ⟨-1, 1, 0⟩, position := ⟨-1, 1, 0⟩,
     rotation := ⟨0, 0, 0⟩, quaternion := QuatK.one },
   { id := 2, initialPosition := ⟨0, 1, 1⟩, position := ⟨0, 1, 1⟩,
     rotation := ⟨0, 0, 0⟩, quaternion := QuatK.one },
   { id := 3, initialPosition := ⟨0, 1, -1⟩, position := ⟨0, 1, -1⟩,
     rotation := ⟨0, 0, 0⟩, quaternion := QuatK.one },
   { id := 4, initialPosition := ⟨1, 1, 1⟩, position := ⟨1, 1, 1⟩,
     rotation := ⟨0, 0, 0⟩, quaternion := QuatK.one },
   { id := 5, initialPosition := ⟨1, 1, -1⟩, position := ⟨1, 1, -1⟩,
     rotation := ⟨0, 0, 0⟩, quaternion := QuatK.one },
   { id := 6, initialPosition := ⟨-1, 1, 1⟩, position := ⟨-1, 1, 1⟩,
     rotation := ⟨0, 0, 0⟩, quaternion := QuatK.one },
   { id := 7, initialPosition := ⟨-1, 1, -1⟩, position := ⟨-1, 1, -1⟩,
     rotation := ⟨0, 0, 0⟩, quaternion := QuatK.one }]

/-- The `x = -1` center of the solved state (id 4 in enumeration order). -/
def c7Center : Cubie :=
  { id := 4, initialPosition := ⟨-1, 0, 0⟩, position := ⟨-1, 0, 0⟩,
    rotation := ⟨0, 0, 0⟩, quaternion := QuatK.one }

/-- C7: when the PLL classifier finds all four side faces are headlights
and all four are bars, with the distinct-corner-color re-verification
passing, it returns the sentinel "Solved"; a candidate that reaches the PLL
stage with that sentinel is upgraded to phase `Solved` with the PLL
sub-case cleared; and the Phase Engine then reports overall phase `Solved`
with `pllCase` unset and `isSolved = true`. -/
theorem c7_pll_solved_upgrade :
    (∀ (topPieces : List Cubie) (topCenter : Cubie),
      ((pllFaces topPieces topCenter).filter (fun f => f.isHeadlights)).length = 4 →
      ((pllFaces topPieces topCenter).filter (fun f => f.isBar)).length = 4 →
      (((pllFaces topPieces topCenter).map (fun f => f.c1)).dedup).length = 4 →
      identifyPLL topPieces topCenter = "Solved") ∧
    (∀ (cubies : List Cubie) (center topCenter : Cubie),
      isCrossSolved (cubies.filter isEdge) center = true →
      (f2lCounts (cubies.filter isEdge) (cubies.filter isCorner) center).pairs = 4 →
      (cubies.filter isCenter).find?
          (fun c => 10 * Vec3Z.dot center.initialPosition c.initialPosition < -9) =
        some topCenter →
      (((cubies.filter isEdge) ++ (cubies.filter isCorner)).filter (fun p =>
          10 * (p.initialPosition.comp (findAxisIdx topCenter.initialPosition) -
            topCenter.initialPosition.comp
              (findAxisIdx topCenter.initialPosition)).natAbs < 1)).all
          (fun p => isOrientedForOLL p topCenter) = true →
      identifyPLL (((cubies.filter isEdge) ++ (cubies.filter isCorner)).filter (fun p =>
          10 * (p.initialPosition.comp (findAxisIdx topCenter.initialPosition) -
            topCenter.initialPosition.comp
              (findAxisIdx topCenter.initialPosition)).natAbs < 1))
          topCenter = "Solved" →
      evalCandidate cubies center =
        some ⟨Phase.Solved, none, none, none, none⟩) ∧
    (∀ cubies : List Cubie,
      (∃ center ∈ cubies.filter isCenter, ∃ r, evalCandidate cubies center = some r ∧
        r.phase = Phase.Solved) →
      (analyzeCube cubies).phase = Phase.Solved ∧
        (analyzeCube cubies).pllCase = none ∧
        (analyzeCube cubies).isSolved = true) := by
  refine ⟨?_, ?_, ?_⟩
  · intro topPieces topCenter hhl hbar hdist
    unfold identifyPLL
    dsimp only
    rw [if_neg (by omega), if_neg (by omega), if_pos hhl, if_pos hbar,
      if_pos hdist]
  · intro cubies center topCenter hcross hpairs hfind hall hpll
    unfold evalCandidate
    dsimp only
    rw [if_pos hcross, if_pos hpairs, hfind]
    dsimp only
    rw [if_pos hall, if_pos hpll]
  · intro cubies hex
    have hfold := foldl_stepBest_solved_of_exists cubies (cubies.filter isCenter)
      ⟨Phase.Scrambled, none, none, none, none, none⟩ (by simp) (Or.inl hex)
    unfold analyzeCube
    dsimp only
    rw [if_neg (by rw [hfold.1]; simp)]
    refine ⟨hfold.1, hfold.2, ?_⟩
    simp only [hfold.1]
    rfl

set_option maxRecDepth 40000 in
set_option maxHeartbeats 3200000 in
/-- C7 witness: the solved `y = 1` top layer satisfies the three PLL-Solved
conditions and the classifier returns "Solved"; the initial snapshot has a
Solved candidate and the engine reports `Solved` with `pllCase` unset. -/
theorem c7_witness :
    ((pllFaces c7TopPieces c8TopCenter).filter (fun f => f.isHeadlights)).length = 4 ∧
      identifyPLL c7TopPieces c8TopCenter = "Solved" ∧
      (analyzeCube getInitialState).phase = Phase.Solved ∧
      (analyzeCube getInitialState).pllCase = none :=
  ⟨by decide,
   c7_pll_solved_upgrade.1 c7TopPieces c8TopCenter (by decide) (by decide)
     (by decide),
   (c7_pll_solved_upgrade.2.2 getInitialState
     ⟨c7Center, by decide, ⟨Phase.Solved, none, none, none, none⟩, by decide,
       rfl⟩).1,
   (c7_pll_solved_upgrade.2.2 getInitialState
     ⟨c7Center, by decide, ⟨Phase.Solved, none, none, none, none⟩, by decide,
       rfl⟩).2.1⟩

set_option maxRecDepth 40000 in
/-- C8 counterexample: a top layer with exactly two oriented edges whose
origins are adjacent (origin squared distance `2 < 1.8² = 3.24`), yet the
classifier returns "Line", not "L-Shape" — the adjacency test of the source
reads the pieces' current positions, not their origins. -/
theorem c8_counterexample :
    (ollOrientedEdges c8Pieces c8TopCenter).length = 2 ∧
      (ollOrientedEdges c8Pieces c8TopCenter).map (fun e => e.initialPosition) =
        [⟨1, 1, 0⟩, ⟨0, 1, 1⟩] ∧
      100 * Vec3Z.distSq (⟨1, 1, 0⟩ : Vec3Z) ⟨0, 1, 1⟩ < 324 ∧
      identify2LookOLL c8Pieces c8TopCenter = "Line" := by
  decide

/-- C8 (amended): the OLL edge stage classifies by count of oriented top
edges — 0 gives "Dot"; exactly 2 gives "L-Shape" when the two oriented
edges' **current positions** are within distance 1.8 (adjacent) and "Line"
otherwise; any other count below 4 gives "Unknown". -/
theorem c8_edge_stage_amended (topPieces : List Cubie) (topCenter : Cubie) :
    ((ollOrientedEdges topPieces topCenter).length = 0 →
      identify2LookOLL topPieces topCenter = "Dot") ∧
    (∀ e0 e1, ollOrientedEdges topPieces topCenter = [e0, e1] →
      identify2LookOLL topPieces topCenter =
        (if 100 * Vec3Z.distSq e0.position e1.position < 324 then "L-Shape"
         else "Line")) ∧
    ((ollOrientedEdges topPieces topCenter).length = 1 ∨
        (ollOrientedEdges topPieces topCenter).length = 3 →
      identify2LookOLL topPieces topCenter = "Unknown") := by
  refine ⟨?_, ?_, ?_⟩
  · intro h
    unfold identify2LookOLL
    dsimp only
    rw [if_pos (by omega), if_pos h]
  · intro e0 e1 h
    unfold identify2LookOLL
    dsimp only
    rw [h]
    norm_num
  · intro h
    unfold identify2LookOLL
    dsimp only
    rcases h with h | h <;>
      rw [if_pos (by omega), if_neg (by omega), if_neg (by omega)]

theorem K.eqv_refl (x : K) : K.eqv x x = true := by
  simp [K.eqv]

theorem memB_of_mem {b : QuatK} (hb : b ∈ binOct48) :
    QuatK.memB b binOct48 = true :=
  (memB_iff b binOct48).mpr ⟨b, hb, by
    simp [QuatK.eqv, K.eqv_refl]⟩

theorem Vec3K.val_of_isIntVec {w : Vec3K} (hp : w.posDenV)
    (hi : w.isIntVecB = true) : w.val = w.toIntVec.valZ := by
  obtain ⟨h1, h2, h3⟩ := hp
  simp only [Vec3K.isIntVecB, Bool.and_eq_true] at hi
  obtain ⟨⟨i1, i2⟩, i3⟩ := hi
  simp only [Vec3K.val, Vec3K.toIntVec, Vec3Z.valZ, K.val_of_isInt h1 i1,
    K.val_of_isInt h2 i2, K.val_of_isInt h3 i3]

theorem Vec3K.isIntVec_of_val_eq {w w' : Vec3K} (hp : w.posDenV)
    (hp' : w'.posDenV) (hv : w.val = w'.val) (hi : w'.isIntVecB = true) :
    w.isIntVecB = true ∧ w.toIntVec = w'.toIntVec := by
  obtain ⟨h1, h2, h3⟩ := hp
  obtain ⟨h4, h5, h6⟩ := hp'
  simp only [Vec3K.isIntVecB, Bool.and_eq_true] at hi
  obtain ⟨⟨i1, i2⟩, i3⟩ := hi
  simp only [Vec3K.val, Prod.mk.injEq] at hv
  obtain ⟨e1, e2, e3⟩ := hv
  have k1 := K.isInt_of_val h1 w'.x.toInt (by rw [e1]; exact K.val_of_isInt h4 i1)
  have k2 := K.isInt_of_val h2 w'.y.toInt (by rw [e2]; exact K.val_of_isInt h5 i2)
  have k3 := K.isInt_of_val h3 w'.z.toInt (by rw [e3]; exact K.val_of_isInt h6 i3)
  refine ⟨?_, ?_⟩
  · simp [Vec3K.isIntVecB, k1.1, k2.1, k3.1]
  · simp [Vec3K.toIntVec, k1.2, k2.2, k3.2]

theorem valZ_lincomb (a b c : ℤ) (u1 u2 u3 : Vec3Z) :
    vq2add (vq2smulQ (a : ℚ) u1.valZ)
        (vq2add (vq2smulQ (b : ℚ) u2.valZ) (vq2smulQ (c : ℚ) u3.valZ)) =
      (⟨a * u1.x + b * u2.x + c * u3.x,
        a * u1.y + b * u2.y + c * u3.y,
        a * u1.z + b * u2.z + c * u3.z⟩ : Vec3Z).valZ := by
  simp only [vq2add, vq2smulQ, Vec3Z.valZ, q2add, Prod.mk.injEq]
  refine ⟨⟨?_, ?_⟩, ⟨?_, ?_⟩, ?_, ?_⟩ <;> push_cast <;> ring

/-- The action of a (value-)group quaternion on an integer vector is the
integer matrix action of its basis columns. -/
theorem applyToVec_int_of_memB {q : QuatK} (hpden : q.posDenQ)
    (hmem : QuatK.memB q binOct48 = true) (u : Vec3Z) :
    (QuatK.applyToVec u.toK q).val = (intAction q u).valZ := by
  obtain ⟨b, hb, heq⟩ := (memB_iff _ _).mp hmem
  have hbp := (binOct_props b hb).1
  have hval : q.val = b.val := (QuatK.eqvQ_true_iff_val hpden hbp).mp heq
  have hcol : ∀ w : Vec3Z, (QuatK.applyToVec w.toK q).val =
      (QuatK.applyToVec w.toK b).val := by
    intro w
    rw [val_applyToVec w q hpden, val_applyToVec w b hbp, hval]
  have hint : ∀ w : Vec3Z, (QuatK.applyToVec w.toK b).isIntVecB = true →
      (QuatK.applyToVec w.toK q).isIntVecB = true ∧
        (QuatK.applyToVec w.toK q).toIntVec =
          (QuatK.applyToVec w.toK b).toIntVec := fun w hw =>
    Vec3K.isIntVec_of_val_eq (posDenV_applyToVec (posDenV_toK w) hpden)
      (posDenV_applyToVec (posDenV_toK w) hbp) (hcol w) hw
  have hx := hint exZ (binOct_props b hb).2.2.2.1
  have hy := hint eyZ (binOct_props b hb).2.2.2.2.1
  have hz := hint ezZ (binOct_props b hb).2.2.2.2.2
  have hqx : (QuatK.applyToVec exZ.toK q).val =
      (QuatK.applyToVec exZ.toK q).toIntVec.valZ :=
    Vec3K.val_of_isIntVec (posDenV_applyToVec (posDenV_toK exZ) hpden) hx.1
  have hqy : (QuatK.applyToVec eyZ.toK q).val =
      (QuatK.applyToVec eyZ.toK q).toIntVec.valZ :=
    Vec3K.val_of_isIntVec (posDenV_applyToVec (posDenV_toK eyZ) hpden) hy.1
  have hqz : (QuatK.applyToVec ezZ.toK q).val =
      (QuatK.applyToVec ezZ.toK q).toIntVec.valZ :=
    Vec3K.val_of_isIntVec (posDenV_applyToVec (posDenV_toK ezZ) hpden) hz.1
  rw [val_applyToVec u q hpden, applyToVecQ2_linear q.val u,
    ← val_applyToVec exZ q hpden, ← val_applyToVec eyZ q hpden,
    ← val_applyToVec ezZ q hpden, hqx, hqy, hqz, valZ_lincomb]
  rfl

/-- Squared distance of an integer-valued vector to an integer vector: a
rational-integer `K` with the expected value. -/
theorem distSq_val_int {w : Vec3K} {u t : Vec3Z} (hwp : w.posDenV)
    (hw : w.val = t.valZ) :
    (Vec3K.distSq w u.toK).posDen ∧
      (Vec3K.distSq w u.toK).val =
        ((((t.x - u.x) ^ 2 + (t.y - u.y) ^ 2 + (t.z - u.z) ^ 2 : ℤ) : ℚ), 0) := by
  obtain ⟨h1, h2, h3⟩ := hwp
  simp only [Vec3K.val, Vec3Z.valZ, Prod.mk.injEq] at hw
  obtain ⟨e1, e2, e3⟩ := hw
  have s1 : (w.x - K.ofZ u.x).posDen := posDen_subK h1 (posDen_ofZ _)
  have s2 : (w.y - K.ofZ u.y).posDen := posDen_subK h2 (posDen_ofZ _)
  have s3 : (w.z - K.ofZ u.z).posDen := posDen_subK h3 (posDen_ofZ _)
  have m1 : ((w.x - K.ofZ u.x) * (w.x - K.ofZ u.x)).posDen := posDen_mulK s1 s1
  have m2 : ((w.y - K.ofZ u.y) * (w.y - K.ofZ u.y)).posDen := posDen_mulK s2 s2
  have m3 : ((w.z - K.ofZ u.z) * (w.z - K.ofZ u.z)).posDen := posDen_mulK s3 s3
  constructor
  · exact posDen_addK (posDen_addK m1 m2) m3
  · have v1 : (w.x - K.ofZ u.x).val = (((t.x - u.x : ℤ) : ℚ), 0) := by
      rw [K.val_sub _ _ (K.ne_of_posDen h1) one_ne_zero]
      simp [e1, K.val_ofZ, q2sub, q2add, q2neg]
      push_cast
      ring
    have v2 : (w.y - K.ofZ u.y).val = (((t.y - u.y : ℤ) : ℚ), 0) := by
      rw [K.val_sub _ _ (K.ne_of_posDen h2) one_ne_zero]
      simp [e2, K.val_ofZ, q2sub, q2add, q2neg]
      push_cast
      ring
    have v3 : (w.z - K.ofZ u.z).val = (((t.z - u.z : ℤ) : ℚ), 0) := by
      rw [K.val_sub _ _ (K.ne_of_posDen h3) one_ne_zero]
      simp [e3, K.val_ofZ, q2sub, q2add, q2neg]
      push_cast
      ring
    show ((w.x - K.ofZ u.x) * (w.x - K.ofZ u.x) +
        (w.y - K.ofZ u.y) * (w.y - K.ofZ u.y) +
        (w.z - K.ofZ u.z) * (w.z - K.ofZ u.z)).val = _
    rw [K.val_add _ _ (K.ne_of_posDen (posDen_addK m1 m2)) (K.ne_of_posDen m3),
      K.val_add _ _ (K.ne_of_posDen m1) (K.ne_of_posDen m2),
      K.val_mul _ _ (K.ne_of_posDen s1) (K.ne_of_posDen s1),
      K.val_mul _ _ (K.ne_of_posDen s2) (K.ne_of_posDen s2),
      K.val_mul _ _ (K.ne_of_posDen s3) (K.ne_of_posDen s3),
      v1, v2, v3]
    simp only [q2mul, q2add, Prod.mk.injEq]
    constructor <;> push_cast <;> ring

set_option maxRecDepth 40000 in
/-- Closed instance of the amended C8 branch table: at the counterexample
state the two oriented edges' current positions decide the L-Shape/Line
branch. -/
theorem c8_amended_witness :
    identify2LookOLL c8Pieces c8TopCenter =
      (if 100 * Vec3Z.distSq (⟨1, 1, 0⟩ : Vec3Z) (⟨-1, 1, 0⟩ : Vec3Z) < 324
        then "L-Shape" else "Line") :=
  (c8_edge_stage_amended c8Pieces c8TopCenter).2.1
    { id := 0
      initialPosition := ⟨1, 1, 0⟩
      position := ⟨1, 1, 0⟩
      rotation := ⟨0, 0, 0⟩
      quaternion := QuatK.one }
    { id := 1
      initialPosition := ⟨0, 1, 1⟩
      position := ⟨-1, 1, 0⟩
      rotation := ⟨0, 0, 0⟩
      quaternion := QuatK.one }
    (by decide)

theorem applyMove_length (s : List Cubie) (m : MoveT) :
    (applyMove s m).length = s.length := by
  simp [applyMove]

theorem applyMove_get (s : List Cubie) (m : MoveT) (i : ℕ)
    (h : i < (applyMove s m).length) (h' : i < s.length) :
    (applyMove s m).get ⟨i, h⟩ = moveCubie m (s.get ⟨i, h'⟩) := by
  simp [applyMove, List.get_eq_getElem, List.getElem_map]

/-- Four applications of the same quarter-turn move restore a single piece:
the position exactly, the quaternion up to sign (hence acting identically
on every vector). -/
theorem moveCubie_four_id (m : MoveT) (hm : ValidMove m)
    (hq1 : m.direction = 1 ∨ m.direction = -1) (c : Cubie)
    (hpos : c.position ∈ latticeList)
    (hpden : c.quaternion.posDenQ) :
    (moveCubie m (moveCubie m (moveCubie m (moveCubie m c)))).position =
        c.position ∧
      ∀ u : Vec3Z,
        (QuatK.applyToVec u.toK
            (moveCubie m (moveCubie m (moveCubie m (moveCubie m c)))).quaternion).val =
          (QuatK.applyToVec u.toK c.quaternion).val := by
  have hd4 : m.direction ∈ dirs4 :=
    dir_mem_dirs4 (by rcases hq1 with h | h; exacts [Or.inl h, Or.inr (Or.inl h)])
  by_cases haff : m.slice.contains (c.position.comp m.axis) = true
  · have hstep : ∀ c' : Cubie, c'.position ∈ latticeList →
        m.slice.contains (c'.position.comp m.axis) = true →
        (moveCubie m c').position = rotateVector c'.position m.axis m.direction ∧
          (moveCubie m c').quaternion =
            QuatK.mul (rotQuatOf m.axis m.direction) c'.quaternion := by
      intro c' hl ha
      constructor
      · rw [movePos_eq]
        unfold posStep
        rw [ha]
        exact commit_eq_rotateVector c'.position hl m.axis (axis_mem m.axis)
          m.direction hd4
      · rw [moveQuat_eq, ha]
        rfl
    obtain ⟨p1, w1⟩ := hstep c hpos haff
    have hl1 : (moveCubie m c).position ∈ latticeList := by
      rw [p1]
      exact rotateVector_lattice c.position hpos m.axis (axis_mem m.axis)
        m.direction hd4
    have ha1 : m.slice.contains ((moveCubie m c).position.comp m.axis) = true := by
      rw [p1, rotateVector_comp]
      exact haff
    obtain ⟨p2, w2⟩ := hstep (moveCubie m c) hl1 ha1
    have hl2 : (moveCubie m (moveCubie m c)).position ∈ latticeList := by
      rw [p2]
      exact rotateVector_lattice _ hl1 m.axis (axis_mem m.axis) m.direction hd4
    have ha2 : m.slice.contains
        ((moveCubie m (moveCubie m c)).position.comp m.axis) = true := by
      rw [p2, rotateVector_comp]
      exact ha1
    obtain ⟨p3, w3⟩ := hstep (moveCubie m (moveCubie m c)) hl2 ha2
    have hl3 : (moveCubie m (moveCubie m (moveCubie m c))).position ∈
        latticeList := by
      rw [p3]
      exact rotateVector_lattice _ hl2 m.axis (axis_mem m.axis) m.direction hd4
    have ha3 : m.slice.contains
        ((moveCubie m (moveCubie m (moveCubie m c))).position.comp m.axis) =
          true := by
      rw [p3, rotateVector_comp]
      exact ha2
    obtain ⟨p4, w4⟩ := hstep (moveCubie m (moveCubie m (moveCubie m c))) hl3 ha3
    constructor
    · rw [p4, p3, p2, p1]
      exact rotateVector_pow4 c.position hpos m.axis (axis_mem m.axis)
        m.direction (by rcases hq1 with h | h <;> simp [h])
    · intro u
      rw [w4, w3, w2, w1]
      have hrp : (rotQuatOf m.axis m.direction).posDenQ :=
        rotQuat_posDen m.axis (axis_mem m.axis) m.direction hd4
      have hp1 := posDenQ_mul hrp hpden
      have hp2 := posDenQ_mul hrp hp1
      have hp3 := posDenQ_mul hrp hp2
      have hp4 := posDenQ_mul hrp hp3
      rw [val_applyToVec u _ hp4, val_applyToVec u _ hpden,
        val_qmul _ _ hrp hp3, val_qmul _ _ hrp hp2, val_qmul _ _ hrp hp1,
        val_qmul _ _ hrp hpden,
        qmulQ2_pow4_of (rotQuatOf m.axis m.direction).val c.quaternion.val
          (rotQuat_val m.axis m.direction hq1),
        applyToVecQ2_negQ]
  · rw [Bool.not_eq_true] at haff
    have hfix : moveCubie m c = c := by
      unfold moveCubie
      dsimp only
      rw [haff]
      rfl
    simp only [hfix]
    exact ⟨trivial, fun u => trivial⟩

/-- C4: four successive applications of one quarter-turn move (direction
`±1`) to any reachable snapshot restore every piece: the position exactly,
and the orientation up to normalization — the resulting quaternion acts on
every vector exactly as the original one, i.e. represents the same
rotation. -/
theorem c4_four_quarter_turns_identity (s : List Cubie) (m : MoveT)
    (hs : Reachable s) (hm : ValidMove m)
    (hq : m.direction = 1 ∨ m.direction = -1) (i : ℕ) (hi : i < s.length)
    (hi4 : i < (applyMove (applyMove (applyMove (applyMove s m) m) m) m).length) :
    ((applyMove (applyMove (applyMove (applyMove s m) m) m) m).get
          ⟨i, hi4⟩).position = (s.get ⟨i, hi⟩).position ∧
      ∀ u : Vec3Z,
        (QuatK.applyToVec u.toK
            ((applyMove (applyMove (applyMove (applyMove s m) m) m) m).get
              ⟨i, hi4⟩).quaternion).val =
          (QuatK.applyToVec u.toK (s.get ⟨i, hi⟩).quaternion).val := by
  have h1 : i < (applyMove s m).length := by rw [applyMove_length]; exact hi
  have h2 : i < (applyMove (applyMove s m) m).length := by
    rw [applyMove_length]; exact h1
  have h3 : i < (applyMove (applyMove (applyMove s m) m) m).length := by
    rw [applyMove_length]; exact h2
  have hg : (applyMove (applyMove (applyMove (applyMove s m) m) m) m).get
      ⟨i, hi4⟩ =
      moveCubie m (moveCubie m (moveCubie m (moveCubie m (s.get ⟨i, hi⟩)))) := by
    rw [applyMove_get _ _ _ hi4 h3, applyMove_get _ _ _ h3 h2,
      applyMove_get _ _ _ h2 h1, applyMove_get _ _ _ h1 hi]
  obtain ⟨hperm, hquat⟩ := reachable_inv hs
  have hmemc : s.get ⟨i, hi⟩ ∈ s := List.get_mem s i hi
  have hpos : (s.get ⟨i, hi⟩).position ∈ latticeList :=
    hperm.mem_iff.mp (List.mem_map_of_mem _ hmemc)
  obtain ⟨hmem, hpden⟩ := hquat _ hmemc
  rw [hg]
  exact moveCubie_four_id m hm hq _ hpos hpden

set_option maxRecDepth 40000 in
/-- Closed instance of C4: four `+x` face quarter turns on the initial
snapshot restore piece 26's position and its quaternion's action on
`(1, 2, 3)`. -/
theorem c4_witness :
    ((applyMove (applyMove (applyMove (applyMove getInitialState moveX1)
          moveX1) moveX1) moveX1).get ⟨26, by decide⟩).position =
        (getInitialState.get ⟨26, by decide⟩).position ∧
      (QuatK.applyToVec (⟨1, 2, 3⟩ : Vec3Z).toK
          ((applyMove (applyMove (applyMove (applyMove getInitialState moveX1)
              moveX1) moveX1) moveX1).get ⟨26, by decide⟩).quaternion).val =
        (QuatK.applyToVec (⟨1, 2, 3⟩ : Vec3Z).toK
          (getInitialState.get ⟨26, by decide⟩).quaternion).val :=
  ⟨(c4_four_quarter_turns_identity getInitialState moveX1 Reachable.init
      ⟨by decide, Or.inl rfl⟩ (Or.inl rfl) 26 (by decide) (by decide)).1,
   (c4_four_quarter_turns_identity getInitialState moveX1 Reachable.init
      ⟨by decide, Or.inl rfl⟩ (Or.inl rfl) 26 (by decide) (by decide)).2 ⟨1, 2, 3⟩⟩

theorem Vec3Z.ext3 (a b : Vec3Z) (h1 : a.x = b.x) (h2 : a.y = b.y)
    (h3 : a.z = b.z) : a = b := by
  cases a
  cases b
  simp_all

/-- C9: a piece sitting on its origin slot (and its reference center on
its own) whose group orientation does not fix the center-to-piece vector
fails the single `< 0.2` tolerance check: `isCorrectlyPlaced` is false. -/
theorem c9_orientation_sensitivity (piece center : Cubie)
    (hkind : isEdge piece = true ∨ isCorner piece = true)
    (hpp : piece.position = piece.initialPosition)
    (hcp : center.position = center.initialPosition)
    (hpden : piece.quaternion.posDenQ)
    (hmem : QuatK.memB piece.quaternion binOct48 = true)
    (hfix : intAction (QuatK.conj piece.quaternion)
        (Vec3Z.sub center.initialPosition piece.initialPosition) ≠
      Vec3Z.sub center.initialPosition piece.initialPosition) :
    isCorrectlyPlaced piece center = false := by
  have hcq : (QuatK.conj piece.quaternion).posDenQ := posDenQ_conj hpden
  have hcqm : QuatK.memB (QuatK.conj piece.quaternion) binOct48 = true := by
    obtain ⟨b, hb, heq⟩ := (memB_iff _ _).mp hmem
    have hbp := (binOct_props b hb).1
    have hcbp : (QuatK.conj b).posDenQ := posDenQ_conj hbp
    refine memB_of_val_eq hcq hcbp ?_ (memB_of_mem (binOct_props b hb).2.1)
    rw [val_conj, val_conj, (QuatK.eqvQ_true_iff_val hpden hbp).mp heq]
  have hw := applyToVec_int_of_memB hcq hcqm
    (Vec3Z.sub center.initialPosition piece.initialPosition)
  have hwp : (QuatK.applyToVec
      (Vec3Z.sub center.initialPosition piece.initialPosition).toK
      (QuatK.conj piece.quaternion)).posDenV :=
    posDenV_applyToVec (posDenV_toK _) hcq
  obtain ⟨hdp, hdv⟩ := @distSq_val_int _
    (Vec3Z.sub center.initialPosition piece.initialPosition) _ hwp hw
  have key : ∀ a : ℤ, a ≠ 0 → (1 : ℤ) ≤ a ^ 2 := by
    intro a ha
    rcases lt_or_gt_of_ne ha with h | h <;> nlinarith
  have hS : (1 : ℤ) ≤
      ((intAction (QuatK.conj piece.quaternion)
          (Vec3Z.sub center.initialPosition piece.initialPosition)).x -
        (Vec3Z.sub center.initialPosition piece.initialPosition).x) ^ 2 +
      ((intAction (QuatK.conj piece.quaternion)
          (Vec3Z.sub center.initialPosition piece.initialPosition)).y -
        (Vec3Z.sub center.initialPosition piece.initialPosition).y) ^ 2 +
      ((intAction (QuatK.conj piece.quaternion)
          (Vec3Z.sub center.initialPosition piece.initialPosition)).z -
        (Vec3Z.sub center.initialPosition piece.initialPosition).z) ^ 2 := by
    have hcomp : (intAction (QuatK.conj piece.quaternion)
          (Vec3Z.sub center.initialPosition piece.initialPosition)).x ≠
          (Vec3Z.sub center.initialPosition piece.initialPosition).x ∨
        (intAction (QuatK.conj piece.quaternion)
          (Vec3Z.sub center.initialPosition piece.initialPosition)).y ≠
          (Vec3Z.sub center.initialPosition piece.initialPosition).y ∨
        (intAction (QuatK.conj piece.quaternion)
          (Vec3Z.sub center.initialPosition piece.initialPosition)).z ≠
          (Vec3Z.sub center.initialPosition piece.initialPosition).z := by
      by_contra hcon
      push_neg at hcon
      obtain ⟨e1, e2, e3⟩ := hcon
      exact hfix (Vec3Z.ext3 _ _ e1 e2 e3)
    rcases hcomp with h | h | h
    · nlinarith [key _ (sub_ne_zero.mpr h), sq_nonneg
        ((intAction (QuatK.conj piece.quaternion)
            (Vec3Z.sub center.initialPosition piece.initialPosition)).y -
          (Vec3Z.sub center.initialPosition piece.initialPosition).y),
        sq_nonneg ((intAction (QuatK.conj piece.quaternion)
            (Vec3Z.sub center.initialPosition piece.initialPosition)).z -
          (Vec3Z.sub center.initialPosition piece.initialPosition).z)]
    · nlinarith [key _ (sub_ne_zero.mpr h), sq_nonneg
        ((intAction (QuatK.conj piece.quaternion)
            (Vec3Z.sub center.initialPosition piece.initialPosition)).x -
          (Vec3Z.sub center.initialPosition piece.initialPosition).x),
        sq_nonneg ((intAction (QuatK.conj piece.quaternion)
            (Vec3Z.sub center.initialPosition piece.initialPosition)).z -
          (Vec3Z.sub center.initialPosition piece.initialPosition).z)]
    · nlinarith [key _ (sub_ne_zero.mpr h), sq_nonneg
        ((intAction (QuatK.conj piece.quaternion)
            (Vec3Z.sub center.initialPosition piece.initialPosition)).x -
          (Vec3Z.sub center.initialPosition piece.initialPosition).x),
        sq_nonneg ((intAction (QuatK.conj piece.quaternion)
            (Vec3Z.sub center.initialPosition piece.initialPosition)).y -
          (Vec3Z.sub center.initialPosition piece.initialPosition).y)]
  unfold isCorrectlyPlaced
  dsimp only
  rw [hpp, hcp]
  refine K.lt_mkQ_false hdp (by rw [hdv]) ?_ 1 25 (by norm_num) (by norm_num)
  rw [hdv]
  dsimp only
  exact_mod_cast hS

set_option maxRecDepth 40000 in
/-- Closed instance of C9: the `(1,1,1)` corner in its own slot, twisted
120° about the cube diagonal, is not `isCorrectlyPlaced` against the solved
top center. -/
theorem c9_witness :
    isCorner c9Piece = true ∧ isCorrectlyPlaced c9Piece c9Center = false :=
  ⟨by decide,
   c9_orientation_sensitivity c9Piece c9Center (Or.inr (by decide)) rfl rfl
     (by decide) (by decide) (by decide)⟩
